import Mathlib

/-!
# Formal model of the zola agent-stream transcoder

This file is a shallow embedding, in Lean 4, of the streaming-protocol
adapter of the zola chat application:

* `src/app/api/chat/agent-stream.ts` — `convertAgentStream`, the stateful
  line-oriented transcoder that converts the agent server's OpenAI-style
  SSE stream into the Vercel AI SDK data-stream protocol;
* `src/app/api/chat/route.ts` — `saveAgentStream`, the persistence mirror
  that consumes a teed copy of the transcoder output, and the `POST`
  handler's routing / user-message-persistence decisions.

Modelling conventions:

* JSON values are the inductive `Json`; JSON numbers are modelled as `Int`
  (no claim in scope depends on float behaviour).
* JavaScript `undefined` / absent object fields are modelled with `Option`;
  `JSON.stringify` dropping `undefined`-valued properties is modelled by
  conditionally including the field (`optField`).
* `JSON.parse` is a platform primitive, not repository code: it is kept
  abstract as a function parameter `jparse : String → Option Json`
  (`none` models a parse error, i.e. a thrown exception that the source
  catches).  All theorems quantify over it.
* The two `crypto.randomUUID()`-derived step ids are parameters
  `step1Id` / `step2Id`.
* A JavaScript `Map` (which preserves insertion order, and keeps the
  original position of a key on overwrite) is modelled as an association
  list with an in-place `set`.
* Byte streams are modelled at character level (`List Char`); the
  `TextDecoder(stream:true)` decoding step is the identity in this model.
* Output parts `` `${type}:${JSON.stringify(value)}\n` `` are modelled
  structurally as `Eff.emit type value`; calls of the `onInterrupt`
  callback are recorded in the same effect trace as `Eff.interruptCb`,
  so that the relative order of writes and callback invocations is
  preserved.
* The upstream contract (header comment of `agent-stream.ts`) has string
  `id` / `name` / `arguments` fields and numeric `index` fields in
  `delta.tool_calls`; values of other runtime types (where JavaScript
  would coerce) are not modelled.
-/

namespace Zola

/-- JSON value, as produced by `JSON.parse`.  Numbers are modelled as `Int`. -/
inductive Json where
  | null
  | bool (b : Bool)
  | num (n : Int)
  | str (s : String)
  | arr (elems : List Json)
  | obj (fields : List (String × Json))

/-- Property access `j.k` on a parsed JSON value: defined for objects,
`none` (undefined) otherwise.  `JSON.parse` output has no duplicate keys, so
first-match lookup is adequate. -/
def Json.get : Json → String → Option Json
  | .obj fs, k => fs.lookup k
  | _, _ => none

/-- JavaScript truthiness of a possibly-absent value, as used by the
`if (parsed.agent_progress)`-style dispatch tests. -/
def truthy : Option Json → Bool
  | none => false
  | some .null => false
  | some (.bool b) => b
  | some (.num n) => n != 0
  | some (.str s) => s != ""
  | some (.arr _) => true
  | some (.obj _) => true

/-- Object field that is dropped when the value is absent (models
`JSON.stringify` omitting `undefined`-valued properties). -/
def optField (k : String) : Option Json → List (String × Json)
  | some v => [(k, v)]
  | none => []

/-- Fields of an object; `[]` for non-objects (models spreading a
non-object, which contributes no enumerable properties for the payloads
in scope). -/
def Json.fieldsD : Json → List (String × Json)
  | .obj fs => fs
  | _ => []

/-- Assignment `o[k] = v` on a JavaScript object: overwrites in place if
the key exists (keeping its position), else appends. -/
def setFieldJs : List (String × Json) → String → Json → List (String × Json)
  | [], k, v => [(k, v)]
  | (k0, v0) :: rest, k, v =>
      if k0 = k then (k, v) :: rest else (k0, v0) :: setFieldJs rest k v

/-- Object spread `{ ...base, ...extra }`: each property of `extra` is
assigned onto `base` in order. -/
def spreadInto (base : List (String × Json)) (extra : List (String × Json)) :
    List (String × Json) :=
  extra.foldl (fun a kv => setFieldJs a kv.1 kv.2) base

/-! ## Transcoder state (`agent-stream.ts`) -/

/-- Accumulator for one streamed tool call (`type ToolCallAcc`). -/
structure ToolCallAcc where
  id : String
  name : String
  args : String
deriving DecidableEq

/-- Mutable state of one `convertAgentStream` run: `toolCallMap`,
`hadToolCalls`, `step2Started`, `progressAnnotations`. -/
structure St where
  toolCallMap : List (Int × ToolCallAcc)
  hadToolCalls : Bool
  step2Started : Bool
  progressAnnotations : List Json

/-- Initial transcoder state. -/
def St.init : St := ⟨[], false, false, []⟩

/-- One observable effect of the transcoder: either a data-stream part
`` `${tag}:${JSON.stringify val}\n` `` enqueued on the output stream, or a
synchronous invocation of the `onInterrupt` callback. -/
inductive Eff where
  | emit (tag : String) (val : Json)
  | interruptCb (payload : Json)

/-- Run parameters: the platform JSON parser and the two random message
ids generated by `randomMsgId()`. -/
structure Params where
  jparse : String → Option Json
  step1Id : String
  step2Id : String

/-- The constant `ZERO_USAGE`. -/
def zeroUsage : Json :=
  .obj [("promptTokens", .num 0), ("completionTokens", .num 0)]

/-- Step-finish part emitted on `finish_reason: "tool_calls"`. -/
def contFinishObj : Json :=
  .obj [("finishReason", .str "tool-calls"), ("usage", zeroUsage),
        ("isContinued", .bool true)]

/-- Step-finish part emitted on `finish_reason: "stop"`. -/
def stopFinishObj : Json :=
  .obj [("finishReason", .str "stop"), ("usage", zeroUsage),
        ("isContinued", .bool false)]

/-- Stream-done part emitted on `finish_reason: "stop"`. -/
def doneObj : Json :=
  .obj [("finishReason", .str "stop"), ("usage", zeroUsage)]

/-- Step-open part for a given message id. -/
def stepOpenObj (msgId : String) : Json := .obj [("messageId", .str msgId)]

/-- The `ensureStep2Open` closure: if step 2 is not yet open, mark it
open, emit its `f:` part, and flush any buffered progress annotations as
a single `2:` part. -/
def ensureStep2Open (p : Params) (st : St) : St × List Eff :=
  if st.step2Started then (st, [])
  else
    ({ st with step2Started := true, progressAnnotations := [] },
     Eff.emit "f" (stepOpenObj p.step2Id) ::
       (if st.progressAnnotations.isEmpty then []
        else [Eff.emit "2" (.arr st.progressAnnotations)]))

/-- Insertion-order-preserving `Map.set` for the tool-call map. -/
def mapSet : List (Int × ToolCallAcc) → Int → ToolCallAcc → List (Int × ToolCallAcc)
  | [], k, v => [(k, v)]
  | (k0, v0) :: rest, k, v =>
      if k0 = k then (k, v) :: rest else (k0, v0) :: mapSet rest k v

/-- Processing of one element of `delta.tool_calls`: find (or lazily
create) the accumulator at `tc.index ?? 0`, then overwrite `id` / `name`
and append to `args` for each truthy fragment field. -/
def applyToolCallDelta (m : List (Int × ToolCallAcc)) (tc : Json) :
    List (Int × ToolCallAcc) :=
  let idx : Int := match tc.get "index" with
    | some (.num n) => n
    | _ => 0
  let m1 := if (m.lookup idx).isSome then m else mapSet m idx ⟨"", "", ""⟩
  let acc0 := (m1.lookup idx).getD ⟨"", "", ""⟩
  let acc1 := match tc.get "id" with
    | some (.str s) => if s = "" then acc0 else { acc0 with id := s }
    | _ => acc0
  let fn := tc.get "function"
  let acc2 := match fn.bind (fun f => f.get "name") with
    | some (.str s) => if s = "" then acc1 else { acc1 with name := s }
    | _ => acc1
  let acc3 := match fn.bind (fun f => f.get "arguments") with
    | some (.str s) => if s = "" then acc2 else { acc2 with args := acc2.args ++ s }
    | _ => acc2
  mapSet m1 idx acc3

/-- Reasoning tokens: `g:` part for a non-empty string `delta.reasoning_content`. -/
def emitReasoning (delta : Json) : List Eff :=
  match delta.get "reasoning_content" with
  | some (.str s) => if s = "" then [] else [Eff.emit "g" (.str s)]
  | _ => []

/-- Accumulation pass over `delta.tool_calls` when it is an array. -/
def accToolCalls (delta : Json) (m : List (Int × ToolCallAcc)) :
    List (Int × ToolCallAcc) :=
  match delta.get "tool_calls" with
  | some (.arr tcs) => tcs.foldl applyToolCallDelta m
  | _ => m

/-- Text tokens: `0:` part for a non-empty string `delta.content`, opening
step 2 first when tools ran and it is not open yet. -/
def emitContent (p : Params) (st : St) (delta : Json) : St × List Eff :=
  match delta.get "content" with
  | some (.str s) =>
      if s = "" then (st, [])
      else if st.hadToolCalls && !st.step2Started then
        let r := ensureStep2Open p st
        (r.1, r.2 ++ [Eff.emit "0" (.str s)])
      else (st, [Eff.emit "0" (.str s)])
  | _ => (st, [])

/-- The `9:` part for one accumulated tool call: arguments are
`JSON.parse`d when they parse, else passed through as the raw string. -/
def nineEff (p : Params) (itc : Int × ToolCallAcc) : Eff :=
  Eff.emit "9" (.obj [("toolCallId", .str itc.2.id),
                      ("toolName", .str itc.2.name),
                      ("args", (p.jparse itc.2.args).getD (.str itc.2.args))])

/-- Handling of `finish_reason: "tool_calls"`: set `hadToolCalls`, emit a
`9:` part for every entry of the tool-call map (which is never cleared),
then close the step with a continued `e:` part. -/
def finishToolCalls (p : Params) (st : St) : St × List Eff :=
  ({ st with hadToolCalls := true },
   st.toolCallMap.map (nineEff p) ++ [Eff.emit "e" contFinishObj])

/-- Handling of `finish_reason: "stop"`: make sure step 2 is open if tools
ran, then emit the final `e:` part and the `d:` part. -/
def finishStop (p : Params) (st : St) : St × List Eff :=
  if st.hadToolCalls && !st.step2Started then
    let r := ensureStep2Open p st
    (r.1, r.2 ++ [Eff.emit "e" stopFinishObj, Eff.emit "d" doneObj])
  else (st, [Eff.emit "e" stopFinishObj, Eff.emit "d" doneObj])

/-- Test `finish_reason === s` for `choices[0]`. -/
def isFinish (c0 : Json) (s : String) : Bool :=
  match c0.get "finish_reason" with
  | some (.str t) => t == s
  | _ => false

/-- Handling of a standard OpenAI choice (`choices[0]`): reasoning tokens,
tool-call fragment accumulation, text tokens, then the two finish-reason
branches, in source order. -/
def processChoice (p : Params) (st : St) (c0 : Json) : St × List Eff :=
  let delta := (c0.get "delta").getD (.obj [])
  let effsG := emitReasoning delta
  let st1 := { st with toolCallMap := accToolCalls delta st.toolCallMap }
  let r0 := emitContent p st1 delta
  let rTC := if isFinish c0 "tool_calls" then finishToolCalls p r0.1 else (r0.1, [])
  let rStop := if isFinish c0 "stop" then finishStop p rTC.1 else (rTC.1, [])
  (rStop.1, effsG ++ r0.2 ++ rTC.2 ++ rStop.2)

/-- Handling of an `agent_progress` event: build the annotation record
(absent `step` / `total` / `phase` / `message` fields are omitted), then
emit it immediately as a singleton `2:` part if step 2 is open, else
buffer it. -/
def handleProgress (st : St) (parsed : Json) : St × List Eff :=
  let ap := (parsed.get "agent_progress").getD .null
  let ann : Json := .obj ([("type", .str "agent_progress")] ++
    optField "phase" (ap.get "phase") ++
    optField "message" (ap.get "message") ++
    optField "step" (ap.get "step") ++
    optField "total" (ap.get "total"))
  if st.step2Started then (st, [Eff.emit "2" (.arr [ann])])
  else ({ st with progressAnnotations := st.progressAnnotations ++ [ann] }, [])

/-- Handling of a `tool_result` event: open step 2 if needed, then emit
the `a:` part. -/
def handleToolResult (p : Params) (st : St) (parsed : Json) : St × List Eff :=
  let tr := (parsed.get "tool_result").getD .null
  let r := ensureStep2Open p st
  (r.1, r.2 ++ [Eff.emit "a" (.obj (optField "toolCallId" (tr.get "toolCallId") ++
                                    optField "result" (tr.get "result")))])

/-- Handling of a `tool_interrupt` event: open step 2 if needed, emit the
interrupt annotation as a singleton `2:` part, then invoke the
`onInterrupt` callback with the same spread payload. -/
def handleInterrupt (p : Params) (st : St) (parsed : Json) : St × List Eff :=
  let ti := (parsed.get "tool_interrupt").getD .null
  let payload : Json := .obj (spreadInto [("type", .str "tool_interrupt")] ti.fieldsD)
  let r := ensureStep2Open p st
  (r.1, r.2 ++ [Eff.emit "2" (.arr [payload]), Eff.interruptCb payload])

/-- Processing of one successfully parsed SSE payload, following the
dispatch order of `processLine`: `agent_progress`, `tool_result`,
`tool_interrupt`, then the standard choice shape (ignored unless
`choices` is a non-empty array). -/
def processParsed (p : Params) (st : St) (parsed : Json) : St × List Eff :=
  if truthy (parsed.get "agent_progress") then handleProgress st parsed
  else if truthy (parsed.get "tool_result") then handleToolResult p st parsed
  else if truthy (parsed.get "tool_interrupt") then handleInterrupt p st parsed
  else match parsed.get "choices" with
    | some (.arr (c0 :: _)) => processChoice p st c0
    | _ => (st, [])

/-- Sequential processing of a list of already-parsed events, threading
the state and concatenating effect traces. -/
def runFrom (p : Params) (st : St) : List Json → St × List Eff
  | [] => (st, [])
  | e :: es =>
      let r1 := processParsed p st e
      let r2 := runFrom p r1.1 es
      (r2.1, r1.2 ++ r2.2)

/-- Full effect trace of a transcoder run over a list of parsed events:
step 1 is opened unconditionally up front, then the events are processed
in order. -/
def runEvents (p : Params) (es : List Json) : List Eff :=
  Eff.emit "f" (stepOpenObj p.step1Id) :: (runFrom p St.init es).2

/-! ## Line and chunk layer (`processLine` and the read loop) -/

/-- Whitespace for the string trimming done by the line layer. -/
def wsChar (c : Char) : Bool := c = ' ' || c = '\t' || c = '\n' || c = '\r'

/-- Model of `String.prototype.trimEnd`. -/
def trimEndL (l : List Char) : List Char := (l.reverse.dropWhile wsChar).reverse

/-- Model of `String.prototype.trim`. -/
def trimBoth (l : List Char) : List Char := trimEndL (l.dropWhile wsChar)

/-- The `"data: "` prefix of meaningful SSE lines. -/
def dataMark : List Char := "data: ".data

/-- The `"[DONE]"` sentinel. -/
def doneMark : List Char := "[DONE]".data

/-- Processing of one complete input line (`processLine`): lines without
the `data: ` prefix, the `[DONE]` sentinel, and payloads `JSON.parse`
rejects are ignored; anything else is dispatched on its parsed value. -/
def processLine (p : Params) (st : St) (line : List Char) : St × List Eff :=
  if dataMark.isPrefixOf line then
    let raw := trimBoth (line.drop 6)
    if raw = doneMark then (st, [])
    else match p.jparse (String.mk raw) with
      | some j => processParsed p st j
      | none => (st, [])
  else (st, [])

/-- Processing of a batch of complete lines, each first stripped of
trailing whitespace (`processLine(line.trimEnd())`). -/
def runLinesFrom (pl : St → List Char → St × List Eff) (st : St) :
    List (List Char) → St × List Eff
  | [] => (st, [])
  | l :: ls =>
      let r1 := pl st (trimEndL l)
      let r2 := runLinesFrom pl r1.1 ls
      (r2.1, r1.2 ++ r2.2)

/-- Newline split of a buffer, as `buffer.split("\n")`: always returns at
least one (possibly empty) segment; the last segment is the part after
the final newline. -/
def splitNl : List Char → List (List Char)
  | [] => [[]]
  | c :: cs =>
      let s := splitNl cs
      if c = '\n' then [] :: s else (c :: s.headI) :: s.tail

/-- Last segment of a newline split (the `lines.pop()`); `[]` for an
empty list, which `splitNl` never returns. -/
def lastSeg : List (List Char) → List Char
  | [] => []
  | [x] => x
  | _ :: rest => lastSeg rest

/-- State of the chunk read loop: transcoder state plus the retained
partial line. -/
structure ChunkState where
  st : St
  buffer : List Char

/-- Processing of one decoded chunk: append to the buffer, split on
newline, process every complete line, and retain the trailing segment. -/
def feedChunk (pl : St → List Char → St × List Eff) (c : ChunkState)
    (chunk : List Char) : ChunkState × List Eff :=
  let segs := splitNl (c.buffer ++ chunk)
  let r := runLinesFrom pl c.st segs.dropLast
  (⟨r.1, lastSeg segs⟩, r.2)

/-- Sequential processing of all chunks. -/
def feedChunks (pl : St → List Char → St × List Eff) (c : ChunkState) :
    List (List Char) → ChunkState × List Eff
  | [] => (c, [])
  | ch :: chs =>
      let r1 := feedChunk pl c ch
      let r2 := feedChunks pl r1.1 chs
      (r2.1, r1.2 ++ r2.2)

/-- Complete effect trace of `convertAgentStream` on a chunked byte
stream: open step 1, feed every chunk, then flush any non-blank retained
buffer as a final line. -/
def convertAgentStream (p : Params) (chunks : List (List Char)) : List Eff :=
  let r := feedChunks (processLine p) ⟨St.init, []⟩ chunks
  Eff.emit "f" (stepOpenObj p.step1Id) ::
    (r.2 ++ (if (trimBoth r.1.buffer).isEmpty then []
             else (processLine p r.1.st (trimEndL r.1.buffer)).2))

/-! ## Persistence mirror (`saveAgentStream`, `route.ts`)

The mirror consumes the teed copy of the transcoder output.  Every part is
`` `${tag}:${JSON.stringify(value)}\n` `` and `JSON.stringify` never emits a
raw newline, so the mirror's own newline split recovers exactly the emitted
parts; a line is therefore modelled structurally as its `(tag, value)`
pair.  Output-protocol `0:` payloads are strings, which is the case the
`textContent += val` accumulation is modelled for. -/

/-- Record held per tool call by the mirror (`{ toolName, args, result? }`). -/
structure SavedTC where
  toolName : Option Json
  args : Option Json
  result : Option Json

/-- Accumulator of the mirror: concatenated text and the tool-call map. -/
structure SaveAcc where
  textContent : String
  toolCalls : List (String × SavedTC)

/-- Insertion-order-preserving `Map.set` for the mirror's tool-call map. -/
def saveSet : List (String × SavedTC) → String → SavedTC → List (String × SavedTC)
  | [], k, v => [(k, v)]
  | (k0, v0) :: rest, k, v =>
      if k0 = k then (k, v) :: rest else (k0, v0) :: saveSet rest k v

/-- In-place update `tc.result = val.result` for an existing entry; no-op
when the id is absent (`if (tc)`). -/
def saveUpdResult : List (String × SavedTC) → String → Option Json → List (String × SavedTC)
  | [], _, _ => []
  | (k0, v0) :: rest, k, r =>
      if k0 = k then (k0, { v0 with result := r }) :: rest
      else (k0, v0) :: saveUpdResult rest k r

/-- The mirror's `parseLine`: `0:` appends to the text, `9:` (re)creates a
tool-call record without result, `a:` attaches the result to an existing
record; all other tags are ignored. -/
def parseSaveLine (acc : SaveAcc) (l : String × Json) : SaveAcc :=
  if l.1 = "0" then
    match l.2 with
    | .str s => { acc with textContent := acc.textContent ++ s }
    | _ => acc
  else if l.1 = "9" then
    match l.2.get "toolCallId" with
    | some (.str id) =>
        { acc with toolCalls :=
            saveSet acc.toolCalls id ⟨l.2.get "toolName", l.2.get "args", none⟩ }
    | _ => acc
  else if l.1 = "a" then
    match l.2.get "toolCallId" with
    | some (.str id) =>
        { acc with toolCalls := saveUpdResult acc.toolCalls id (l.2.get "result") }
    | _ => acc
  else acc

/-- The message row persisted by the mirror (`prisma.message.create`
payload: `content` and the JSON `parts`). -/
structure SavedMsg where
  content : String
  parts : List Json

/-- Persisted part for one completed tool invocation. -/
def invocationPart (e : String × SavedTC) : Json :=
  .obj [("type", .str "tool-invocation"),
        ("toolInvocation", .obj ([("state", .str "result"), ("step", .num 0),
          ("toolCallId", .str e.1)] ++
          optField "toolName" e.2.toolName ++
          optField "args" e.2.args ++
          optField "result" e.2.result))]

/-- The mirror (`saveAgentStream`) as a function from the consumed lines
to the persisted message row: tool calls without an attached result are
filtered out; nothing is persisted when there is neither text nor a
completed tool call. -/
def saveAgentStream (lines : List (String × Json)) : Option SavedMsg :=
  let acc := lines.foldl parseSaveLine ⟨"", []⟩
  let completed := acc.toolCalls.filter (fun e => e.2.result.isSome)
  if acc.textContent = "" && completed.isEmpty then none
  else some ⟨acc.textContent,
    Json.obj [("type", .str "step-start")] :: completed.map invocationPart ++
      (if acc.textContent = "" then []
       else [Json.obj [("type", .str "text"), ("text", .str acc.textContent)]])⟩

/-- Stream lines seen by the mirror, extracted from a transcoder effect
trace (callback invocations are not stream parts). -/
def outLines : List Eff → List (String × Json)
  | [] => []
  | .emit t v :: rest => (t, v) :: outLines rest
  | .interruptCb _ :: rest => outLines rest

/-! ## Chat route `POST` handler (`route.ts`) -/

/-- One incoming chat message, as deserialized from the request body.
Only the fields the routing logic reads are modelled. -/
structure MsgIn where
  role : String
  content : Json

/-- The deserialized `ChatRequest` fields the routing logic reads.
Absent optional fields are `none`; JavaScript falsiness of the required
string fields is the empty string. -/
structure ChatReq where
  messages : List MsgIn
  chatId : String
  model : String
  messageGroupId : Option String
  editCutoffTimestamp : Option String

/-- Observable actions of the `POST` handler, in execution order.  The
streaming conversion that follows a fetch is outside this model. -/
inductive RouteEff where
  | badRequest
  | deleteFromCutoff (chatId cutoff : String)
  | clearInterrupt (chatId : String)
  | resumeFetch (threadId action : String)
  | createUserMessage (chatId content : String) (messageGroupId : Option String)
  | agentFetch (chatId : String)
  | standardStream

/-- Truthiness test used for the optional `editCutoffTimestamp`. -/
def optTruthyStr : Option String → Bool
  | some s => s != ""
  | none => false

/-- The `POST` handler's synchronous routing and persistence decisions:
missing-field check, cutoff deletion, resume-path detection and early
return, the guarded user-message save, then agent-proxy or standard
path.  `sanitize` abstracts `sanitizeUserInput` (code outside `src/`). -/
def routePOST (sanitize : String → String) (req : ChatReq) : List RouteEff :=
  if req.chatId = "" || req.model = "" then [RouteEff.badRequest]
  else
    let userMessage := req.messages.getLast?
    let userContent : String := match userMessage with
      | some m => match m.content with
        | .str s => s
        | _ => ""
      | none => ""
    let isUserRole : Bool := match userMessage with
      | some m => m.role == "user"
      | none => false
    let effsDel := if optTruthyStr req.editCutoffTimestamp then
        [RouteEff.deleteFromCutoff req.chatId (req.editCutoffTimestamp.getD "")]
      else []
    let resumeMatch := req.model == "test-agent" && isUserRole &&
      "RESUME:".data.isPrefixOf userContent.data
    if resumeMatch then
      let parts := userContent.splitOn ":"
      let action := (parts.drop 1).headD "denied"
      let threadId := String.intercalate ":" (parts.drop 2)
      effsDel ++ [RouteEff.clearInterrupt req.chatId,
                  RouteEff.resumeFetch threadId action]
    else
      let effsSave := if isUserRole && !("RESUME:".data.isPrefixOf userContent.data) then
          [RouteEff.createUserMessage req.chatId (sanitize userContent)
            req.messageGroupId]
        else []
      effsDel ++ effsSave ++
        (if req.model == "test-agent" then [RouteEff.agentFetch req.chatId]
         else [RouteEff.standardStream])

/-! ## Helper lemmas: the chunk layer re-segments but never re-orders -/

theorem splitNl_ne_nil (l : List Char) : splitNl l ≠ [] := by
  cases l with
  | nil => simp [splitNl]
  | cons c cs => simp only [splitNl]; split <;> simp

theorem lastSeg_append (l1 l2 : List (List Char)) (h : l2 ≠ []) :
    lastSeg (l1 ++ l2) = lastSeg l2 := by
  induction l1 with
  | nil => rfl
  | cons x xs ih =>
      cases xs with
      | nil => cases l2 with
        | nil => exact absurd rfl h
        | cons y ys => rfl
      | cons y ys => rw [List.cons_append, List.cons_append] at *; rw [← ih]; rfl

theorem splitNl_append (x y : List Char) :
    splitNl (x ++ y) =
      (splitNl x).dropLast ++ splitNl (lastSeg (splitNl x) ++ y) := by
  induction x with
  | nil => simp [splitNl, lastSeg]
  | cons c cs ih =>
      obtain ⟨hd, tl, hs⟩ := List.exists_cons_of_ne_nil (splitNl_ne_nil cs)
      by_cases hc : c = '\n'
      · simp only [List.cons_append, splitNl, hc, if_pos rfl, hs] at *
        cases tl with
        | nil => simpa using ih
        | cons t1 ts => simpa using ih
      · simp only [List.cons_append, splitNl, if_neg hc, hs] at *
        cases tl with
        | nil =>
            simp only [List.headI, List.tail, List.dropLast, lastSeg,
              List.nil_append] at *
            simp only [splitNl, if_neg hc, List.append_eq, ih]
            rfl
        | cons t1 ts =>
            simp only [List.headI, List.tail, List.dropLast, lastSeg,
              List.cons_append] at *
            simp [ih]

theorem runLinesFrom_append (pl : St → List Char → St × List Eff) (st : St)
    (l1 l2 : List (List Char)) :
    runLinesFrom pl st (l1 ++ l2) =
      ((runLinesFrom pl (runLinesFrom pl st l1).1 l2).1,
       (runLinesFrom pl st l1).2 ++ (runLinesFrom pl (runLinesFrom pl st l1).1 l2).2) := by
  induction l1 generalizing st with
  | nil => simp [runLinesFrom]
  | cons l ls ih => simp [runLinesFrom, ih]

theorem feedChunk_append (pl : St → List Char → St × List Eff)
    (c : ChunkState) (a b : List Char) :
    ((feedChunk pl (feedChunk pl c a).1 b).1,
     (feedChunk pl c a).2 ++ (feedChunk pl (feedChunk pl c a).1 b).2) =
      feedChunk pl c (a ++ b) := by
  simp only [feedChunk, ← List.append_assoc]
  rw [splitNl_append (c.buffer ++ a) b]
  rw [List.dropLast_append_of_ne_nil _ (splitNl_ne_nil _)]
  rw [lastSeg_append _ _ (splitNl_ne_nil _)]
  rw [runLinesFrom_append]

theorem feedChunks_shift (pl : St → List Char → St × List Eff)
    (cs : List (List Char)) (c : ChunkState) (a : List Char) :
    ((feedChunks pl (feedChunk pl c a).1 cs).1,
     (feedChunk pl c a).2 ++ (feedChunks pl (feedChunk pl c a).1 cs).2) =
      feedChunk pl c (a ++ cs.flatten) := by
  induction cs generalizing c a with
  | nil => simp [feedChunks]
  | cons ch chs ih =>
      simp only [feedChunks, List.flatten]
      have h1 := feedChunk_append pl c a ch
      have e1 : (feedChunk pl (feedChunk pl c a).1 ch).1 = (feedChunk pl c (a ++ ch)).1 := by
        rw [← h1]
      have e2 : (feedChunk pl c a).2 ++ (feedChunk pl (feedChunk pl c a).1 ch).2 =
          (feedChunk pl c (a ++ ch)).2 := by
        rw [← h1]
      rw [← List.append_assoc, e2, e1, ih, List.append_assoc]

theorem feedChunks_join (pl : St → List Char → St × List Eff) (st : St)
    (cs : List (List Char)) :
    feedChunks pl ⟨st, []⟩ cs = feedChunk pl ⟨st, []⟩ cs.flatten := by
  cases cs with
  | nil => simp [feedChunks, feedChunk, splitNl, runLinesFrom, lastSeg]
  | cons ch chs =>
      simp only [feedChunks, List.flatten]
      exact feedChunks_shift pl chs ⟨st, []⟩ ch

/-! ## C1 — chunking invariance of the transcoder -/

/-- C1: the transcoder output depends only on the concatenation of the
delivered byte chunks: for every two chunkings of the same upstream text
(in particular, arbitrary mid-line splits versus one whole line per
chunk), `convertAgentStream` produces the same effect trace — the same
output lines in the same order. -/
theorem c1_chunking_invariance (p : Params) (cs ds : List (List Char))
    (h : cs.flatten = ds.flatten) :
    convertAgentStream p cs = convertAgentStream p ds := by
  unfold convertAgentStream
  rw [feedChunks_join, feedChunks_join, h]

/-- Witness for C1: a stream of two lines delivered with a split in the
middle of the first line versus one whole line per chunk. -/
theorem c1_chunking_invariance_witness :
    convertAgentStream ⟨fun _ => none, "m1", "m2"⟩
        ["data: \x7b\x22po".data, "ng\x22:1\x7d\ndata: [DONE]\n".data] =
      convertAgentStream ⟨fun _ => none, "m1", "m2"⟩
        ["data: \x7b\x22pong\x22:1\x7d\n".data, "data: [DONE]\n".data] :=
  c1_chunking_invariance ⟨fun _ => none, "m1", "m2"⟩ _ _ (by rfl)

/-! ## C8 — malformed and non-data lines are inert -/

/-- Test whether a (trailing-whitespace-trimmed) line is one the line
layer ignores: no `data: ` prefix, the `[DONE]` sentinel, or a payload
rejected by `JSON.parse`. -/
def badLine (p : Params) (l : List Char) : Bool :=
  !(dataMark.isPrefixOf l) ||
  (trimBoth (l.drop 6) == doneMark) ||
  (p.jparse (String.mk (trimBoth (l.drop 6)))).isNone

/-- C8: processing a line whose payload after `data: ` is not valid JSON
leaves the transcoder state unchanged and emits nothing, and deleting the
line from the input leaves the processing of all other lines unchanged;
the same holds for lines without the `data: ` prefix and for the
`data: [DONE]` sentinel. -/
theorem c8_malformed_line_inert (p : Params) (line : List Char)
    (h : badLine p (trimEndL line) = true) :
    (∀ st : St, processLine p st (trimEndL line) = (st, [])) ∧
    (∀ (st : St) (ls1 ls2 : List (List Char)),
      runLinesFrom (processLine p) st (ls1 ++ line :: ls2) =
        runLinesFrom (processLine p) st (ls1 ++ ls2)) := by
  have h1 : ∀ st : St, processLine p st (trimEndL line) = (st, []) := by
    intro st
    simp only [badLine, Bool.or_eq_true, Bool.not_eq_true', beq_iff_eq,
      Option.isNone_iff_eq_none] at h
    rcases h with (h | h) | h
    · simp [processLine, h]
    · by_cases hp : dataMark.isPrefixOf (trimEndL line)
      · simp [processLine, hp, h]
      · simp [processLine, hp]
    · by_cases hp : dataMark.isPrefixOf (trimEndL line)
      · by_cases hd : trimBoth ((trimEndL line).drop 6) = doneMark
        · simp [processLine, hp, hd]
        · simp only [processLine, hp, if_true, if_neg hd, h]
      · simp [processLine, hp]
  constructor
  · exact h1
  · intro st ls1 ls2
    induction ls1 generalizing st with
    | nil => simp [runLinesFrom, h1]
    | cons l ls ih => simp [runLinesFrom, ih]

/-- Witness for C8: the malformed line `data: {not valid json` is
inert in the initial state. -/
theorem c8_malformed_line_inert_witness :
    processLine ⟨fun _ => none, "w1", "w2"⟩ St.init
        (trimEndL "data: \x7bnot valid json".data) = (St.init, []) :=
  (c8_malformed_line_inert ⟨fun _ => none, "w1", "w2"⟩
    "data: \x7bnot valid json".data (by rfl)).1 St.init

/-! ## Classification of events and output lines used by the theorems -/

/-- Event handled by the `agent_progress` branch. -/
def isProgressEvent (j : Json) : Bool := truthy (j.get "agent_progress")

/-- Event handled by the `tool_result` branch. -/
def isToolResultEvent (j : Json) : Bool :=
  !isProgressEvent j && truthy (j.get "tool_result")

/-- Event handled by the `tool_interrupt` branch. -/
def isInterruptEvent (j : Json) : Bool :=
  !isProgressEvent j && !truthy (j.get "tool_result") &&
    truthy (j.get "tool_interrupt")

/-- The `choices[0]` object of an event that reaches the standard-SSE
branch and has a non-empty `choices` array. -/
def choiceOf (j : Json) : Option Json :=
  if isProgressEvent j || truthy (j.get "tool_result") ||
      truthy (j.get "tool_interrupt") then none
  else match j.get "choices" with
    | some (.arr (c0 :: _)) => some c0
    | _ => none

/-- Event carrying `finish_reason: "stop"` on the standard branch. -/
def isStopEvent (j : Json) : Bool :=
  match choiceOf j with
  | some c0 => isFinish c0 "stop"
  | none => false

/-- Event carrying `finish_reason: "tool_calls"` on the standard branch. -/
def isToolCallsFinishEvent (j : Json) : Bool :=
  match choiceOf j with
  | some c0 => isFinish c0 "tool_calls"
  | none => false

/-- Stream-done (`d:`) output line. -/
def isD : Eff → Bool
  | .emit "d" _ => true
  | _ => false

/-- Final step-finish output line: `e:` with `finishReason "stop"` and
`isContinued false`. -/
def isEStop : Eff → Bool
  | .emit "e" (.obj [("finishReason", .str "stop"), ("usage", _),
      ("isContinued", .bool false)]) => true
  | _ => false

/-- Number of `d:` lines in an effect trace. -/
def countD (l : List Eff) : Nat := (l.filter isD).length

/-- Scan checking that every `d:` line is immediately preceded by a final
`e:` step-finish line; `prev` is the effect just before the scanned
segment. -/
def dAfterEStop (prev : Option Eff) : List Eff → Bool
  | [] => true
  | e :: rest =>
      (!(isD e) || (match prev with | some q => isEStop q | none => false)) &&
        dAfterEStop (some e) rest

/-- Last effect of a segment, defaulting to the effect before it. -/
def lastO (prev : Option Eff) : List Eff → Option Eff
  | [] => prev
  | e :: l => lastO (some e) l

theorem countD_append (l1 l2 : List Eff) :
    countD (l1 ++ l2) = countD l1 + countD l2 := by
  simp [countD, List.filter_append]

theorem countD_nil : countD [] = 0 := rfl

theorem countD_cons (e : Eff) (l : List Eff) :
    countD (e :: l) = countD l + (if isD e = true then 1 else 0) := by
  by_cases h : isD e <;> simp [countD, List.filter, h]

theorem countD_ensure (p : Params) (st : St) :
    countD (ensureStep2Open p st).2 = 0 := by
  unfold ensureStep2Open
  by_cases h1 : st.step2Started
  · simp [h1, countD_nil]
  · by_cases h2 : st.progressAnnotations.isEmpty <;>
      simp [h1, h2, countD_cons, countD_nil, isD]

theorem countD_nines (p : Params) (l : List (Int × ToolCallAcc)) :
    countD (l.map (nineEff p)) = 0 := by
  induction l with
  | nil => simp [countD_nil]
  | cons x xs ih => simp [countD_cons, nineEff, isD, ih]

theorem countD_emitReasoning (delta : Json) :
    countD (emitReasoning delta) = 0 := by
  unfold emitReasoning
  split
  · split <;> simp [countD_cons, countD_nil, isD]
  · simp [countD_nil]

theorem countD_emitContent (p : Params) (st : St) (delta : Json) :
    countD (emitContent p st delta).2 = 0 := by
  unfold emitContent
  split
  · split
    · simp [countD_nil]
    · split
      · simp [countD_append, countD_ensure, countD_cons, countD_nil, isD]
      · simp [countD_cons, countD_nil, isD]
  · simp [countD_nil]

theorem countD_finishToolCalls (p : Params) (st : St) :
    countD (finishToolCalls p st).2 = 0 := by
  simp [finishToolCalls, countD_append, countD_nines, countD_cons, countD_nil, isD]

theorem countD_finishStop (p : Params) (st : St) :
    countD (finishStop p st).2 = 1 := by
  unfold finishStop
  split
  · simp [countD_append, countD_ensure, countD_cons, countD_nil, isD]
  · simp [countD_cons, countD_nil, isD]

theorem countD_processChoice (p : Params) (st : St) (c0 : Json) :
    countD (processChoice p st c0).2 = if isFinish c0 "stop" then 1 else 0 := by
  unfold processChoice
  by_cases hs : isFinish c0 "stop"
  · by_cases ht : isFinish c0 "tool_calls" <;>
      simp [ht, hs, countD_append, countD_emitReasoning, countD_emitContent,
        countD_finishToolCalls, countD_finishStop, countD_nil]
  · by_cases ht : isFinish c0 "tool_calls" <;>
      simp [ht, hs, countD_append, countD_emitReasoning, countD_emitContent,
        countD_finishToolCalls, countD_nil]

theorem countD_handleProgress (st : St) (j : Json) :
    countD (handleProgress st j).2 = 0 := by
  unfold handleProgress
  split <;> simp [countD_cons, countD_nil, isD]

theorem countD_handleToolResult (p : Params) (st : St) (j : Json) :
    countD (handleToolResult p st j).2 = 0 := by
  simp [handleToolResult, countD_append, countD_ensure, countD_cons,
    countD_nil, isD]

theorem countD_handleInterrupt (p : Params) (st : St) (j : Json) :
    countD (handleInterrupt p st j).2 = 0 := by
  simp [handleInterrupt, countD_append, countD_ensure, countD_cons,
    countD_nil, isD]

theorem countD_processParsed (p : Params) (st : St) (j : Json) :
    countD (processParsed p st j).2 = if isStopEvent j then 1 else 0 := by
  unfold processParsed isStopEvent choiceOf
  by_cases h1 : truthy (j.get "agent_progress")
  · simp [isProgressEvent, h1, countD_handleProgress]
  · by_cases h2 : truthy (j.get "tool_result")
    · simp [isProgressEvent, h1, h2, countD_handleToolResult]
    · by_cases h3 : truthy (j.get "tool_interrupt")
      · simp [isProgressEvent, h1, h2, h3, countD_handleInterrupt]
      · simp only [isProgressEvent, h1, h2, h3, if_false, Bool.false_or,
          Bool.or_self]
        cases hc : j.get "choices" with
        | none => simp [countD_nil]
        | some v =>
            cases v with
            | arr elems =>
                cases elems with
                | nil => simp [countD_nil]
                | cons c0 rest => simp [countD_processChoice]
            | null => simp [countD_nil]
            | bool b => simp [countD_nil]
            | num n => simp [countD_nil]
            | str s => simp [countD_nil]
            | obj fs => simp [countD_nil]

theorem countD_runFrom (p : Params) (st : St) (es : List Json) :
    countD (runFrom p st es).2 = (es.filter isStopEvent).length := by
  induction es generalizing st with
  | nil => simp [runFrom, countD_nil]
  | cons j js ih =>
      simp only [runFrom, countD_append, countD_processParsed, List.filter]
      by_cases hj : isStopEvent j
      · simp [hj, ih, Nat.add_comm]
      · simp [hj, ih]

theorem dAfterEStop_append (prev : Option Eff) (l1 l2 : List Eff) :
    dAfterEStop prev (l1 ++ l2) =
      (dAfterEStop prev l1 && dAfterEStop (lastO prev l1) l2) := by
  induction l1 generalizing prev with
  | nil => simp [dAfterEStop, lastO]
  | cons e l ih => simp [dAfterEStop, lastO, ih, Bool.and_assoc]

theorem dAfterEStop_of_countD_zero (l : List Eff) (h : countD l = 0)
    (prev : Option Eff) : dAfterEStop prev l = true := by
  induction l generalizing prev with
  | nil => rfl
  | cons e rest ih =>
      have he : isD e = false := by
        by_contra hx
        simp only [Bool.not_eq_false] at hx
        simp [countD, List.filter, hx] at h
      have hr : countD rest = 0 := by
        simpa [countD, List.filter, he] using h
      simp [dAfterEStop, he, ih hr]

theorem dAfterEStop_finishStop (p : Params) (st : St) (prev : Option Eff) :
    dAfterEStop prev (finishStop p st).2 = true := by
  unfold finishStop
  split
  · rw [dAfterEStop_append]
    have h1 : dAfterEStop prev (ensureStep2Open p st).2 = true :=
      dAfterEStop_of_countD_zero _ (countD_ensure p st) prev
    rw [h1]
    simp [dAfterEStop, isD, isEStop, stopFinishObj, zeroUsage, doneObj]
  · simp [dAfterEStop, isD, isEStop, stopFinishObj, zeroUsage, doneObj]

theorem dAfterEStop_processChoice (p : Params) (st : St) (c0 : Json)
    (prev : Option Eff) : dAfterEStop prev (processChoice p st c0).2 = true := by
  unfold processChoice
  rcases Bool.eq_false_or_eq_true (isFinish c0 "tool_calls") with ht | ht <;>
    rcases Bool.eq_false_or_eq_true (isFinish c0 "stop") with hs | hs <;>
    simp only [ht, hs, if_true, if_false, Bool.false_eq_true, Bool.true_eq_false,
      dAfterEStop_append, Bool.and_eq_true] <;>
    refine ⟨⟨⟨dAfterEStop_of_countD_zero _ (countD_emitReasoning _) _,
      dAfterEStop_of_countD_zero _ (countD_emitContent p _ _) _⟩, ?_⟩, ?_⟩
  · exact dAfterEStop_of_countD_zero _ (countD_finishToolCalls p _) _
  · exact dAfterEStop_finishStop p _ _
  · exact dAfterEStop_of_countD_zero _ (countD_finishToolCalls p _) _
  · rfl
  · rfl
  · exact dAfterEStop_finishStop p _ _
  · rfl
  · rfl

theorem dAfterEStop_processParsed (p : Params) (st : St) (j : Json)
    (prev : Option Eff) : dAfterEStop prev (processParsed p st j).2 = true := by
  unfold processParsed
  by_cases h1 : truthy (j.get "agent_progress")
  · simp only [h1, if_true]
    exact dAfterEStop_of_countD_zero _ (countD_handleProgress st j) prev
  · by_cases h2 : truthy (j.get "tool_result")
    · simp only [h1, h2, if_true, if_false]
      exact dAfterEStop_of_countD_zero _ (countD_handleToolResult p st j) prev
    · by_cases h3 : truthy (j.get "tool_interrupt")
      · simp only [h1, h2, h3, if_true, if_false]
        exact dAfterEStop_of_countD_zero _ (countD_handleInterrupt p st j) prev
      · simp only [h1, h2, h3, if_false]
        cases hc : j.get "choices" with
        | none => rfl
        | some v =>
            cases v with
            | arr elems =>
                cases elems with
                | nil => rfl
                | cons c0 rest => exact dAfterEStop_processChoice p st c0 prev
            | null => rfl
            | bool b => rfl
            | num n => rfl
            | str s => rfl
            | obj fs => rfl

theorem dAfterEStop_runFrom (p : Params) (st : St) (es : List Json)
    (prev : Option Eff) : dAfterEStop prev (runFrom p st es).2 = true := by
  induction es generalizing st prev with
  | nil => rfl
  | cons j js ih =>
      simp only [runFrom, dAfterEStop_append]
      rw [dAfterEStop_processParsed p st j prev, ih]
      rfl

/-! ## C7 — stream-done emission discipline (amended) -/

/-- C7 (amended): `convertAgentStream` emits exactly one `d:` stream-done
line per `"stop"` finish reason in the input — hence at most one whenever
the input carries at most one `"stop"`, and none when it carries none —
and every `d:` line is immediately preceded by an `e:` step-finish line
with `finishReason "stop"` and `isContinued false`. -/
theorem c7_stream_done_discipline (p : Params) (es : List Json) :
    countD (runEvents p es) = (es.filter isStopEvent).length ∧
    dAfterEStop none (runEvents p es) = true := by
  constructor
  · rw [runEvents, countD_cons, countD_runFrom]
    simp [isD]
  · simp only [runEvents]
    have : dAfterEStop none
        (Eff.emit "f" (stepOpenObj p.step1Id) :: (runFrom p St.init es).2) =
        dAfterEStop (some (Eff.emit "f" (stepOpenObj p.step1Id)))
          (runFrom p St.init es).2 := by
      simp [dAfterEStop, isD]
    rw [this]
    exact dAfterEStop_runFrom p St.init es _

/-- Fixed parameters used by the concrete counterexample and witness
runs: a table-free parser and two distinct step ids. -/
def pCex : Params := ⟨fun _ => none, "m1", "m2"⟩

/-- Standard-choice event with the given delta fields and finish reason. -/
def choiceEv (delta : List (String × Json)) (finish : Json) : Json :=
  .obj [("choices", .arr [.obj [("delta", .obj delta), ("finish_reason", finish)]])]

/-- Bare finish-reason event. -/
def finishEv (r : String) : Json := choiceEv [] (.str r)

/-- Counterexample to C7 as frozen: the claim asserts the `d:` line is
emitted at most once per run for every input, but an input carrying two
`"stop"` finish reasons yields two `d:` lines. -/
theorem c7_counterexample :
    countD (runEvents pCex [finishEv "stop", finishEv "stop"]) = 2 := by rfl

/-- Progress event with a phase and a message. -/
def progressEv (ph msg : String) : Json :=
  .obj [("agent_progress", .obj [("phase", .str ph), ("message", .str msg)])]

/-- Tool-result event. -/
def toolResultEv (id : String) (res : Json) : Json :=
  .obj [("tool_result", .obj [("toolCallId", .str id), ("result", res)])]

/-- Tool-interrupt event with the given payload fields. -/
def interruptEv (fields : List (String × Json)) : Json :=
  .obj [("tool_interrupt", .obj fields)]

/-! ## C6 — shape of `2:` annotation lines -/

/-- Annotation (`2:`) output line. -/
def is2 (e : Eff) : Bool :=
  match e with
  | .emit t _ => t == "2"
  | _ => false

/-- Step-open (`f:`) output line. -/
def isF (e : Eff) : Bool :=
  match e with
  | .emit t _ => t == "f"
  | _ => false

/-- Payload of an emitted line. -/
def emitVal : Eff → Option Json
  | .emit _ v => some v
  | _ => none

/-- Shape condition on the payload of a `2:` line: a nonempty array,
singleton unless the line directly follows an `f:` line. -/
def okTwoVal (prevF : Bool) : Option Json → Bool
  | some (.arr (_ :: tl)) => prevF || tl.isEmpty
  | _ => false

/-- Scan of an effect trace checking the `2:` line shape; `prevF` records
whether the effect before the scanned segment is an `f:` line. -/
def annOK (prevF : Bool) : List Eff → Bool
  | [] => true
  | e :: rest =>
      (!(is2 e) || okTwoVal prevF (emitVal e)) && annOK (isF e) rest

/-- Whether the last effect of a segment is an `f:` line (`b` when the
segment is empty). -/
def endsF (b : Bool) : List Eff → Bool
  | [] => b
  | e :: l => endsF (isF e) l

theorem annOK_append (b : Bool) (l1 l2 : List Eff) :
    annOK b (l1 ++ l2) = (annOK b l1 && annOK (endsF b l1) l2) := by
  induction l1 generalizing b with
  | nil => simp [annOK, endsF]
  | cons e l ih => simp [annOK, endsF, ih, Bool.and_assoc]

theorem annOK_of_no_two (l : List Eff) (h : ∀ e ∈ l, is2 e = false)
    (b : Bool) : annOK b l = true := by
  induction l generalizing b with
  | nil => rfl
  | cons e rest ih =>
      simp [annOK, h e (by simp), ih (fun x hx => h x (by simp [hx]))]

theorem annOK_ensure (p : Params) (st : St) (b : Bool) :
    annOK b (ensureStep2Open p st).2 = true := by
  unfold ensureStep2Open
  by_cases h1 : st.step2Started
  · simp [h1, annOK]
  · by_cases h2 : st.progressAnnotations.isEmpty
    · simp [h1, h2, annOK, is2, isF, okTwoVal, emitVal]
    · cases hl : st.progressAnnotations with
      | nil => simp [hl, List.isEmpty_nil] at h2
      | cons a as =>
          simp [h1, h2, hl, annOK, is2, isF, okTwoVal, emitVal]

theorem annOK_handleProgress (st : St) (j : Json) (b : Bool) :
    annOK b (handleProgress st j).2 = true := by
  unfold handleProgress
  split <;> simp [annOK, is2, isF, okTwoVal, emitVal]

theorem annOK_handleToolResult (p : Params) (st : St) (j : Json) (b : Bool) :
    annOK b (handleToolResult p st j).2 = true := by
  unfold handleToolResult
  rw [annOK_append]
  simp [annOK_ensure, annOK, is2, isF]

theorem annOK_handleInterrupt (p : Params) (st : St) (j : Json) (b : Bool) :
    annOK b (handleInterrupt p st j).2 = true := by
  unfold handleInterrupt
  rw [annOK_append]
  simp [annOK_ensure, annOK, is2, isF, okTwoVal, emitVal]

theorem annOK_emitReasoning (delta : Json) (b : Bool) :
    annOK b (emitReasoning delta) = true := by
  unfold emitReasoning
  split
  · split <;> simp [annOK, is2, isF]
  · rfl

theorem annOK_emitContent (p : Params) (st : St) (delta : Json) (b : Bool) :
    annOK b (emitContent p st delta).2 = true := by
  unfold emitContent
  split
  · split
    · rfl
    · split
      · rw [annOK_append]
        simp [annOK_ensure, annOK, is2, isF]
      · simp [annOK, is2, isF]
  · rfl

theorem annOK_finishToolCalls (p : Params) (st : St) (b : Bool) :
    annOK b (finishToolCalls p st).2 = true := by
  refine annOK_of_no_two _ ?_ b
  intro e he
  simp only [finishToolCalls, List.mem_append, List.mem_map,
    List.mem_singleton] at he
  rcases he with ⟨x, _, hx⟩ | he
  · rw [← hx]; rfl
  · rw [he]; rfl

theorem annOK_finishStop (p : Params) (st : St) (b : Bool) :
    annOK b (finishStop p st).2 = true := by
  unfold finishStop
  split
  · rw [annOK_append]
    simp [annOK_ensure, annOK, is2, isF]
  · simp [annOK, is2, isF]

theorem annOK_processChoice (p : Params) (st : St) (c0 : Json) (b : Bool) :
    annOK b (processChoice p st c0).2 = true := by
  unfold processChoice
  rcases Bool.eq_false_or_eq_true (isFinish c0 "tool_calls") with ht | ht <;>
    rcases Bool.eq_false_or_eq_true (isFinish c0 "stop") with hs | hs <;>
    simp only [ht, hs, if_true, if_false, Bool.false_eq_true, Bool.true_eq_false,
      annOK_append, Bool.and_eq_true] <;>
    refine ⟨⟨⟨annOK_emitReasoning _ _, annOK_emitContent p _ _ _⟩, ?_⟩, ?_⟩
  · exact annOK_finishToolCalls p _ _
  · exact annOK_finishStop p _ _
  · exact annOK_finishToolCalls p _ _
  · rfl
  · rfl
  · exact annOK_finishStop p _ _
  · rfl
  · rfl

theorem annOK_processParsed (p : Params) (st : St) (j : Json) (b : Bool) :
    annOK b (processParsed p st j).2 = true := by
  unfold processParsed
  by_cases h1 : truthy (j.get "agent_progress")
  · simp only [h1, if_true]
    exact annOK_handleProgress st j b
  · by_cases h2 : truthy (j.get "tool_result")
    · simp only [h1, h2, if_true, if_false]
      exact annOK_handleToolResult p st j b
    · by_cases h3 : truthy (j.get "tool_interrupt")
      · simp only [h1, h2, h3, if_true, if_false]
        exact annOK_handleInterrupt p st j b
      · simp only [h1, h2, h3, if_false]
        cases hc : j.get "choices" with
        | none => rfl
        | some v =>
            cases v with
            | arr elems =>
                cases elems with
                | nil => rfl
                | cons c0 rest => exact annOK_processChoice p st c0 b
            | null => rfl
            | bool x => rfl
            | num x => rfl
            | str x => rfl
            | obj x => rfl

theorem annOK_runFrom (p : Params) (st : St) (es : List Json) (b : Bool) :
    annOK b (runFrom p st es).2 = true := by
  induction es generalizing st b with
  | nil => rfl
  | cons j js ih =>
      simp only [runFrom, annOK_append]
      rw [annOK_processParsed p st j b, ih]
      rfl

/-- C6 (amended): every `2:` annotation line emitted by
`convertAgentStream` carries a nonempty array, and carries exactly one
element unless it is emitted immediately after an `f:` step-open line —
the flush of buffered annotations on step-2 open, which carries all
annotations buffered so far in arrival order in a single `2:` line. -/
theorem c6_two_line_shape (p : Params) (es : List Json) :
    annOK false (runEvents p es) = true := by
  simp only [runEvents, annOK, is2, isF, emitVal]
  rw [annOK_runFrom]
  rfl

/-- Lengths of the arrays carried by the `2:` lines of a trace. -/
def twoLineLens (l : List Eff) : List Nat :=
  l.filterMap (fun e =>
    match e with
    | .emit "2" (.arr xs) => some xs.length
    | _ => none)

/-- Counterexample to C6 as frozen: two progress annotations buffered
before step 2 opens are flushed in one `2:` line carrying a two-element
array, contradicting `array with exactly one element`. -/
theorem c6_counterexample :
    twoLineLens (runEvents pCex
      [progressEv "p1" "m1", progressEv "p2" "m2",
       toolResultEv "c" (.num 1)]) = [2] := by rfl

/-! ## Dispatch equations for `processParsed` -/

theorem processParsed_eq_progress (p : Params) (st : St) (j : Json)
    (h1 : truthy (j.get "agent_progress") = true) :
    processParsed p st j = handleProgress st j := by
  unfold processParsed
  rw [if_pos h1]

theorem processParsed_eq_toolResult (p : Params) (st : St) (j : Json)
    (h1 : truthy (j.get "agent_progress") = false)
    (h2 : truthy (j.get "tool_result") = true) :
    processParsed p st j = handleToolResult p st j := by
  unfold processParsed
  rw [if_neg (by simp [h1]), if_pos h2]

theorem processParsed_eq_interrupt (p : Params) (st : St) (j : Json)
    (h1 : truthy (j.get "agent_progress") = false)
    (h2 : truthy (j.get "tool_result") = false)
    (h3 : truthy (j.get "tool_interrupt") = true) :
    processParsed p st j = handleInterrupt p st j := by
  unfold processParsed
  rw [if_neg (by simp [h1]), if_neg (by simp [h2]), if_pos h3]

theorem processParsed_eq_choice (p : Params) (st : St) (j : Json)
    (h1 : truthy (j.get "agent_progress") = false)
    (h2 : truthy (j.get "tool_result") = false)
    (h3 : truthy (j.get "tool_interrupt") = false) :
    processParsed p st j =
      (match j.get "choices" with
       | some (.arr (c0 :: _)) => processChoice p st c0
       | _ => (st, [])) := by
  unfold processParsed
  rw [if_neg (by simp [h1]), if_neg (by simp [h2]), if_neg (by simp [h3])]

/-! ## C4 — interrupt callback discipline -/

/-- Callback-invocation effect. -/
def isCb : Eff → Bool
  | .interruptCb _ => true
  | .emit _ _ => false

/-- Number of `onInterrupt` invocations in a trace. -/
def countCb (l : List Eff) : Nat := (l.filter isCb).length

/-- Per-effect condition of the callback scan: a callback invocation must
directly follow the `2:` line carrying exactly its own payload. -/
def cbPrevOK (prev : Option Eff) (e : Eff) : Prop :=
  match e with
  | .interruptCb w => prev = some (Eff.emit "2" (.arr [w]))
  | .emit _ _ => True

/-- Scan of an effect trace checking that every callback invocation
directly follows its own `2:` annotation line. -/
def cbOKFrom (prev : Option Eff) : List Eff → Prop
  | [] => True
  | e :: rest => cbPrevOK prev e ∧ cbOKFrom (some e) rest

theorem cbOKFrom_append (prev : Option Eff) (l1 l2 : List Eff) :
    cbOKFrom prev (l1 ++ l2) ↔
      (cbOKFrom prev l1 ∧ cbOKFrom (lastO prev l1) l2) := by
  induction l1 generalizing prev with
  | nil => simp [cbOKFrom, lastO]
  | cons e l ih => simp [cbOKFrom, lastO, ih, and_assoc]

theorem cbOKFrom_of_no_cb (l : List Eff) (h : ∀ e ∈ l, isCb e = false)
    (prev : Option Eff) : cbOKFrom prev l := by
  induction l generalizing prev with
  | nil => trivial
  | cons e rest ih =>
      refine ⟨?_, ih (fun x hx => h x (by simp [hx])) _⟩
      have he := h e (by simp)
      cases e with
      | emit t v => trivial
      | interruptCb w => simp [isCb] at he

theorem countCb_append (l1 l2 : List Eff) :
    countCb (l1 ++ l2) = countCb l1 + countCb l2 := by
  simp [countCb, List.filter_append]

theorem countCb_nil : countCb [] = 0 := rfl

theorem no_cb_ensure (p : Params) (st : St) :
    ∀ e ∈ (ensureStep2Open p st).2, isCb e = false := by
  unfold ensureStep2Open
  by_cases h1 : st.step2Started
  · simp [h1]
  · by_cases h2 : st.progressAnnotations.isEmpty <;>
      simp [h1, h2, isCb]

theorem countCb_of_no_cb (l : List Eff) (h : ∀ e ∈ l, isCb e = false) :
    countCb l = 0 := by
  simp [countCb, List.filter_eq_nil_iff.mpr (by simpa using h)]

theorem no_cb_handleProgress (st : St) (j : Json) :
    ∀ e ∈ (handleProgress st j).2, isCb e = false := by
  unfold handleProgress
  split <;> simp [isCb]

theorem no_cb_handleToolResult (p : Params) (st : St) (j : Json) :
    ∀ e ∈ (handleToolResult p st j).2, isCb e = false := by
  unfold handleToolResult
  intro e he
  simp only [List.mem_append, List.mem_singleton] at he
  rcases he with he | he
  · exact no_cb_ensure p st e he
  · rw [he]; rfl

theorem no_cb_emitReasoning (delta : Json) :
    ∀ e ∈ emitReasoning delta, isCb e = false := by
  unfold emitReasoning
  split
  · split <;> simp [isCb]
  · simp

theorem no_cb_emitContent (p : Params) (st : St) (delta : Json) :
    ∀ e ∈ (emitContent p st delta).2, isCb e = false := by
  unfold emitContent
  split
  · split
    · simp
    · split
      · intro e he
        simp only [List.mem_append, List.mem_singleton] at he
        rcases he with he | he
        · exact no_cb_ensure p _ e he
        · rw [he]; rfl
      · simp [isCb]
  · simp

theorem no_cb_finishToolCalls (p : Params) (st : St) :
    ∀ e ∈ (finishToolCalls p st).2, isCb e = false := by
  intro e he
  simp only [finishToolCalls, List.mem_append, List.mem_map,
    List.mem_singleton] at he
  rcases he with ⟨x, _, hx⟩ | he
  · rw [← hx]; rfl
  · rw [he]; rfl

theorem no_cb_finishStop (p : Params) (st : St) :
    ∀ e ∈ (finishStop p st).2, isCb e = false := by
  unfold finishStop
  split
  · intro e he
    simp only [List.mem_append, List.mem_cons, List.mem_singleton,
      List.not_mem_nil] at he
    rcases he with he | he | he | he
    · exact no_cb_ensure p _ e he
    · rw [he]; rfl
    · rw [he]; rfl
    · exact absurd he (by simp)
  · intro e he
    simp only [List.mem_cons, List.mem_singleton, List.not_mem_nil] at he
    rcases he with he | he | he
    · rw [he]; rfl
    · rw [he]; rfl
    · exact absurd he (by simp)

theorem no_cb_processChoice (p : Params) (st : St) (c0 : Json) :
    ∀ e ∈ (processChoice p st c0).2, isCb e = false := by
  unfold processChoice
  intro e he
  simp only [List.mem_append] at he
  rcases he with ((he | he) | he) | he
  · exact no_cb_emitReasoning _ e he
  · exact no_cb_emitContent p _ _ e he
  · rcases (by split at he <;> [exact Or.inl he; exact Or.inr he] :
        e ∈ (finishToolCalls p _).2 ∨ e ∈ ([] : List Eff)) with hx | hx
    · exact no_cb_finishToolCalls p _ e hx
    · exact absurd hx (by simp)
  · rcases (by split at he <;> [exact Or.inl he; exact Or.inr he] :
        e ∈ (finishStop p _).2 ∨ e ∈ ([] : List Eff)) with hx | hx
    · exact no_cb_finishStop p _ e hx
    · exact absurd hx (by simp)

theorem cb_processParsed (p : Params) (st : St) (j : Json)
    (prev : Option Eff) :
    countCb (processParsed p st j).2 =
      (if isInterruptEvent j then 1 else 0) ∧
    cbOKFrom prev (processParsed p st j).2 := by
  rcases Bool.eq_false_or_eq_true (truthy (j.get "agent_progress")) with h1 | h1
  · rw [processParsed_eq_progress p st j h1]
    simp only [isInterruptEvent, isProgressEvent, h1, Bool.not_true,
      Bool.false_and, Bool.and_false, if_false]
    exact ⟨countCb_of_no_cb _ (no_cb_handleProgress st j),
      cbOKFrom_of_no_cb _ (no_cb_handleProgress st j) prev⟩
  · rcases Bool.eq_false_or_eq_true (truthy (j.get "tool_result")) with h2 | h2
    · rw [processParsed_eq_toolResult p st j h1 h2]
      simp only [isInterruptEvent, isProgressEvent, h1, h2, Bool.not_false,
        Bool.true_and, Bool.false_and, Bool.and_false, if_false]
      exact ⟨countCb_of_no_cb _ (no_cb_handleToolResult p st j),
        cbOKFrom_of_no_cb _ (no_cb_handleToolResult p st j) prev⟩
    · rcases Bool.eq_false_or_eq_true (truthy (j.get "tool_interrupt")) with h3 | h3
      · rw [processParsed_eq_interrupt p st j h1 h2 h3]
        simp only [isInterruptEvent, isProgressEvent, h1, h2, h3,
          Bool.not_false, Bool.true_and, Bool.and_true, if_true]
        constructor
        · unfold handleInterrupt
          rw [countCb_append, countCb_of_no_cb _ (no_cb_ensure p st)]
          rfl
        · unfold handleInterrupt
          rw [cbOKFrom_append]
          exact ⟨cbOKFrom_of_no_cb _ (no_cb_ensure p st) prev,
            trivial, rfl, trivial⟩
      · rw [processParsed_eq_choice p st j h1 h2 h3]
        have hi : isInterruptEvent j = false := by
          simp [isInterruptEvent, isProgressEvent, h1, h2, h3]
        rw [hi]
        simp only [Bool.false_eq_true, if_false]
        cases hc : j.get "choices" with
        | none => exact ⟨rfl, trivial⟩
        | some v =>
            cases v with
            | arr elems =>
                cases elems with
                | nil => exact ⟨rfl, trivial⟩
                | cons c0 rest =>
                    exact ⟨countCb_of_no_cb _ (no_cb_processChoice p st c0),
                      cbOKFrom_of_no_cb _ (no_cb_processChoice p st c0) prev⟩
            | null => exact ⟨rfl, trivial⟩
            | bool x => exact ⟨rfl, trivial⟩
            | num x => exact ⟨rfl, trivial⟩
            | str x => exact ⟨rfl, trivial⟩
            | obj x => exact ⟨rfl, trivial⟩

theorem cb_runFrom (p : Params) (st : St) (es : List Json)
    (prev : Option Eff) :
    countCb (runFrom p st es).2 = (es.filter isInterruptEvent).length ∧
    cbOKFrom prev (runFrom p st es).2 := by
  induction es generalizing st prev with
  | nil => exact ⟨rfl, trivial⟩
  | cons j js ih =>
      obtain ⟨hcnt, hok⟩ := cb_processParsed p st j prev
      obtain ⟨ihc, iho⟩ := ih (processParsed p st j).1 (lastO prev (processParsed p st j).2)
      constructor
      · simp only [runFrom, countCb_append, hcnt, ihc, List.filter]
        by_cases hj : isInterruptEvent j
        · simp [hj, Nat.add_comm]
        · simp [hj]
      · simp only [runFrom]
        exact (cbOKFrom_append prev _ _).mpr ⟨hok, iho⟩

/-- C4 (amended): for every `tool_interrupt` event in the input, the
`onInterrupt` callback is invoked synchronously exactly once, with the
parsed interrupt payload spread after `type: "tool_interrupt"`, and the
invocation happens immediately AFTER the corresponding `2:` annotation
line (which carries exactly the same payload, verbatim) is enqueued on
the output stream. -/
theorem c4_interrupt_callback (p : Params) (es : List Json) :
    countCb (runEvents p es) = (es.filter isInterruptEvent).length ∧
    cbOKFrom none (runEvents p es) := by
  obtain ⟨hc, ho⟩ := cb_runFrom p St.init es
    (some (Eff.emit "f" (stepOpenObj p.step1Id)))
  constructor
  · simp only [runEvents, countCb, List.filter, isCb]
    exact hc
  · exact ⟨trivial, ho⟩

/-- Kind of each effect in a trace: the line tag for emitted lines,
`"callback"` for callback invocations. -/
def effKinds (l : List Eff) : List String :=
  l.map (fun e =>
    match e with
    | .emit t _ => t
    | .interruptCb _ => "callback")

/-- Counterexample to C4 as frozen: the claim requires the callback
invocation to happen before the `2:` line is written, but on a concrete
interrupt event the trace enqueues the `2:` line first and invokes the
callback after it. -/
theorem c4_counterexample :
    effKinds (runEvents pCex
      [interruptEv [("toolCallId", .str "c1"), ("toolName", .str "t"),
        ("prompt", .str "ok?"), ("thread_id", .str "th1")]]) =
      ["f", "f", "2", "callback"] := by rfl

/-! ## C10 — buffered progress annotations in tool-free runs -/

/-- Number of `2:` annotation lines in a trace. -/
def count2 (l : List Eff) : Nat := (l.filter is2).length

/-- Event that neither opens step 2 nor sets `hadToolCalls`: not a
tool-result, not a tool-interrupt, and not a `tool_calls` finish. -/
def plainEvent (j : Json) : Bool :=
  !isToolResultEvent j && !isInterruptEvent j && !isToolCallsFinishEvent j

theorem count2_append (l1 l2 : List Eff) :
    count2 (l1 ++ l2) = count2 l1 + count2 l2 := by
  simp [count2, List.filter_append]

theorem count2_of_no_two (l : List Eff) (h : ∀ e ∈ l, is2 e = false) :
    count2 l = 0 := by
  simp [count2, List.filter_eq_nil_iff.mpr (by simpa using h)]

theorem count2_nil : count2 [] = 0 := rfl

theorem emitContent_plain (p : Params) (st : St) (delta : Json)
    (htc : st.hadToolCalls = false) :
    (emitContent p st delta).1 = st ∧ count2 (emitContent p st delta).2 = 0 := by
  unfold emitContent
  split
  · split
    · exact ⟨rfl, rfl⟩
    · rw [htc]
      refine ⟨?_, ?_⟩ <;> rfl
  · exact ⟨rfl, rfl⟩

theorem finishStop_plain (p : Params) (st : St)
    (htc : st.hadToolCalls = false) :
    (finishStop p st).1 = st ∧ count2 (finishStop p st).2 = 0 := by
  unfold finishStop
  rw [htc]
  exact ⟨rfl, rfl⟩

theorem count2_emitReasoning (delta : Json) :
    count2 (emitReasoning delta) = 0 := by
  unfold emitReasoning
  split
  · split <;> rfl
  · rfl

theorem processChoice_plain (p : Params) (st : St) (c0 : Json)
    (hs2 : st.step2Started = false) (htc : st.hadToolCalls = false)
    (hfin : isFinish c0 "tool_calls" = false) :
    count2 (processChoice p st c0).2 = 0 ∧
    (processChoice p st c0).1.step2Started = false ∧
    (processChoice p st c0).1.hadToolCalls = false := by
  unfold processChoice
  rw [hfin]
  simp only [Bool.false_eq_true, if_false]
  obtain ⟨hcst, hccnt⟩ := emitContent_plain p
    { st with toolCallMap :=
        accToolCalls ((c0.get "delta").getD (Json.obj [])) st.toolCallMap }
    ((c0.get "delta").getD (Json.obj [])) htc
  rcases Bool.eq_false_or_eq_true (isFinish c0 "stop") with hstp | hstp
  · rw [hstp]
    simp only [if_true]
    rw [hcst]
    obtain ⟨hfs, hfc⟩ := finishStop_plain p
      { st with toolCallMap :=
          accToolCalls ((c0.get "delta").getD (Json.obj [])) st.toolCallMap }
      htc
    refine ⟨?_, ?_, ?_⟩
    · simp only [count2_append, count2_emitReasoning, hccnt, hfc, count2_nil]
    · rw [hfs]; exact hs2
    · rw [hfs]; exact htc
  · rw [hstp]
    simp only [Bool.false_eq_true, if_false]
    rw [hcst]
    refine ⟨?_, hs2, htc⟩
    simp only [count2_append, count2_emitReasoning, hccnt, count2_nil]

theorem c10_step (p : Params) (st : St) (j : Json)
    (hs2 : st.step2Started = false) (htc : st.hadToolCalls = false)
    (hj : plainEvent j = true) :
    count2 (processParsed p st j).2 = 0 ∧
    (processParsed p st j).1.step2Started = false ∧
    (processParsed p st j).1.hadToolCalls = false := by
  rcases Bool.eq_false_or_eq_true (truthy (j.get "agent_progress")) with h1 | h1
  · rw [processParsed_eq_progress p st j h1]
    unfold handleProgress
    rw [hs2]
    exact ⟨rfl, rfl, htc⟩
  · rcases Bool.eq_false_or_eq_true (truthy (j.get "tool_result")) with h2 | h2
    · exfalso
      have hx : isToolResultEvent j = true := by
        simp [isToolResultEvent, isProgressEvent, h1, h2]
      simp [plainEvent, hx] at hj
    · rcases Bool.eq_false_or_eq_true (truthy (j.get "tool_interrupt")) with h3 | h3
      · exfalso
        have hx : isInterruptEvent j = true := by
          simp [isInterruptEvent, isProgressEvent, h1, h2, h3]
        simp [plainEvent, hx] at hj
      · rw [processParsed_eq_choice p st j h1 h2 h3]
        cases hc : j.get "choices" with
        | none => exact ⟨rfl, hs2, htc⟩
        | some v =>
            cases v with
            | arr elems =>
                cases elems with
                | nil => exact ⟨rfl, hs2, htc⟩
                | cons c0 rest =>
                    have hfin : isFinish c0 "tool_calls" = false := by
                      by_contra hx
                      simp only [Bool.not_eq_false] at hx
                      have hy : isToolCallsFinishEvent j = true := by
                        simp [isToolCallsFinishEvent, choiceOf, isProgressEvent,
                          h1, h2, h3, hc, hx]
                      simp [plainEvent, hy] at hj
                    exact processChoice_plain p st c0 hs2 htc hfin
            | null => exact ⟨rfl, hs2, htc⟩
            | bool x => exact ⟨rfl, hs2, htc⟩
            | num x => exact ⟨rfl, hs2, htc⟩
            | str x => exact ⟨rfl, hs2, htc⟩
            | obj x => exact ⟨rfl, hs2, htc⟩

theorem c10_runFrom (p : Params) (st : St) (es : List Json)
    (hs2 : st.step2Started = false) (htc : st.hadToolCalls = false)
    (hall : es.all plainEvent = true) : count2 (runFrom p st es).2 = 0 := by
  induction es generalizing st with
  | nil => rfl
  | cons j js ih =>
      simp only [List.all_cons, Bool.and_eq_true] at hall
      obtain ⟨hcnt, hstep, htc2⟩ := c10_step p st j hs2 htc hall.1
      simp only [runFrom, count2_append, hcnt]
      rw [ih _ hstep htc2 hall.2]

/-- C10 (amended): in a run whose input contains no `tool_calls` finish
reason and also no `tool_result` or `tool_interrupt` event (the other two
ways step 2 can open), `agent_progress` events are buffered and never
flushed: the output contains no `2:` annotation line at all, even after a
`"stop"` finish reason ends the run. -/
theorem c10_buffered_progress_dropped (p : Params) (es : List Json)
    (h : es.all plainEvent = true) : count2 (runEvents p es) = 0 := by
  simp only [runEvents, count2, List.filter, is2]
  exact c10_runFrom p St.init es rfl rfl h

/-- Text-content event. -/
def contentEv (s : String) : Json := choiceEv [("content", .str s)] .null

/-- Witness for C10: a run with one buffered progress event, a text token
and a stop finish emits no `2:` line. -/
theorem c10_buffered_progress_dropped_witness :
    count2 (runEvents pCex
      [progressEv "plan" "working", contentEv "x", finishEv "stop"]) = 0 :=
  c10_buffered_progress_dropped pCex
    [progressEv "plan" "working", contentEv "x", finishEv "stop"] (by rfl)

/-- Payloads of the `2:` lines of a trace. -/
def twoPayloads (l : List Eff) : List Json :=
  l.filterMap (fun e =>
    match e with
    | .emit "2" v => some v
    | _ => none)

/-- Counterexample to C10 as frozen: with no `tool_calls` finish reason in
the input (`hadToolCalls` stays false), a buffered progress annotation is
nevertheless flushed and emitted as a `2:` line when a `tool_result`
event opens step 2. -/
theorem c10_counterexample :
    twoPayloads (runEvents pCex
      [progressEv "plan" "working", toolResultEv "c" (.num 1),
       finishEv "stop"]) =
      [.arr [.obj [("type", .str "agent_progress"), ("phase", .str "plan"),
        ("message", .str "working")]]] := by rfl

/-! ## C2 — tool-call re-emission across rounds -/

/-- The `toolCallId` values of the `9:` tool-call lines of a trace, in
emission order. -/
def nineIdsOf (l : List Eff) : List String :=
  l.filterMap (fun e =>
    match e with
    | .emit "9" v =>
        (match v.get "toolCallId" with
         | some (.str s) => some s
         | _ => none)
    | _ => none)

/-- Tool-call-fragment event: one element of `delta.tool_calls` with the
given index, id, name and argument text. -/
def toolDeltaEv (idx : Int) (id nm args : String) : Json :=
  choiceEv [("tool_calls", .arr [.obj [("index", .num idx), ("id", .str id),
    ("function", .obj [("name", .str nm), ("arguments", .str args)])]])] .null

/-- C2: evaluation of the transcoder at the failing input.  The claim
requires each tool call's `9:` line to be emitted exactly once over the
whole run, but `toolCallMap` is never cleared: a second
`finish_reason "tool_calls"` iterates over the entire map again, so the
round-1 tool call `call_a` is re-emitted alongside the round-2 call
`call_b` — its `9:` line appears twice. -/
theorem c2_failing_input_eval :
    nineIdsOf (runEvents pCex
      [toolDeltaEv 0 "call_a" "fetch" "\x7b\x7d", finishEv "tool_calls",
       toolDeltaEv 1 "call_b" "grep" "\x7b\x7d", finishEv "tool_calls"]) =
      ["call_a", "call_a", "call_b"] := by rfl

/-! ## C9 — resume signals are never persisted as user messages -/

/-- C9: when the last request message is a user message whose string
content starts with `RESUME:`, the `POST` handler performs no
user-message insert at all — the save is skipped on the resume path
(early return before the save) and on the normal path (explicit
`RESUME:` guard) — so the resume signal is never stored as conversation
content. -/
theorem c9_resume_never_persisted (sanitize : String → String)
    (req : ChatReq) (m : MsgIn) (s : String)
    (hm : req.messages.getLast? = some m)
    (hrole : m.role = "user")
    (hc : m.content = .str s)
    (hpre : "RESUME:".data.isPrefixOf s.data = true) :
    ∀ (cid c : String) (mg : Option String),
      RouteEff.createUserMessage cid c mg ∉ routePOST sanitize req := by
  intro cid c mg
  unfold routePOST
  split
  · simp
  · rw [hm]
    simp only [hc, hrole]
    by_cases hdel : optTruthyStr req.editCutoffTimestamp
    · by_cases hmod : req.model = "test-agent"
      · simp [hdel, hmod, hpre]
      · simp [hdel, hmod, hpre]
    · by_cases hmod : req.model = "test-agent"
      · simp [hdel, hmod, hpre]
      · simp [hdel, hmod, hpre]

/-- Witness for C9: a concrete resume request produces no user-message
insert. -/
theorem c9_resume_never_persisted_witness :
    RouteEff.createUserMessage "chat1" "RESUME:approved:th1" none ∉
      routePOST (fun s => s)
        ⟨[⟨"user", .str "RESUME:approved:th1"⟩], "chat1", "test-agent",
          none, none⟩ :=
  c9_resume_never_persisted (fun s => s)
    ⟨[⟨"user", .str "RESUME:approved:th1"⟩], "chat1", "test-agent", none, none⟩
    ⟨"user", .str "RESUME:approved:th1"⟩ "RESUME:approved:th1"
    (by rfl) rfl rfl (by rfl) "chat1" "RESUME:approved:th1" none

/-! ## C3 — step-boundary rule -/

/-- Output line that must only appear inside an open step: text token
(`0:`), annotation (`2:`) or tool result (`a:`). -/
def isZAA (e : Eff) : Bool :=
  match e with
  | .emit t _ => t == "0" || t == "2" || t == "a"
  | _ => false

/-- Continued step-finish line `e:{finishReason:"tool-calls", isContinued:true}`. -/
def isECont : Eff → Bool
  | .emit "e" (.obj [("finishReason", .str "tool-calls"), ("usage", _),
      ("isContinued", .bool true)]) => true
  | _ => false

/-- Scan of a trace segment that starts with no step open: every text,
annotation or tool-result line must be preceded (within the segment) by
an `f:` step-open line. -/
def segOK (opn : Bool) : List Eff → Bool
  | [] => true
  | e :: rest => (!(isZAA e) || opn) && segOK (opn || isF e) rest

/-- Whether a step is open after scanning a segment from openness `b`. -/
def endsOpen (b : Bool) : List Eff → Bool
  | [] => b
  | e :: l => endsOpen (b || isF e) l

/-- Step-boundary check of a whole trace: from the first continued
step-finish line on, the remainder must satisfy `segOK false` — a new
`f:` line must come before any further text, annotation or tool-result
line. -/
def c3check : List Eff → Bool
  | [] => true
  | e :: rest => if isECont e then segOK false rest else c3check rest

theorem segOK_append (b : Bool) (l1 l2 : List Eff) :
    segOK b (l1 ++ l2) = (segOK b l1 && segOK (endsOpen b l1) l2) := by
  induction l1 generalizing b with
  | nil => simp [segOK, endsOpen]
  | cons e l ih => simp [segOK, endsOpen, ih, Bool.and_assoc]

theorem endsOpen_append (b : Bool) (l1 l2 : List Eff) :
    endsOpen b (l1 ++ l2) = endsOpen (endsOpen b l1) l2 := by
  induction l1 generalizing b with
  | nil => rfl
  | cons e l ih => simp [endsOpen, ih]

theorem endsOpen_true (l : List Eff) : endsOpen true l = true := by
  induction l with
  | nil => rfl
  | cons e rest ih => simpa [endsOpen] using ih

theorem endsOpen_no_f (l : List Eff) (h : ∀ e ∈ l, isF e = false)
    (b : Bool) : endsOpen b l = b := by
  induction l generalizing b with
  | nil => rfl
  | cons e rest ih =>
      rw [endsOpen, h e (by simp)]
      simpa using ih (fun x hx => h x (by simp [hx])) b

theorem segOK_no_zaa (l : List Eff) (h : ∀ e ∈ l, isZAA e = false)
    (b : Bool) : segOK b l = true := by
  induction l generalizing b with
  | nil => rfl
  | cons e rest ih =>
      rw [segOK, h e (by simp)]
      simpa using ih (fun x hx => h x (by simp [hx])) _

theorem segOK_true (l : List Eff) : segOK true l = true := by
  induction l with
  | nil => rfl
  | cons e rest ih =>
      rw [segOK]
      simpa [Bool.true_or, endsOpen] using ih

theorem seg_ensure (p : Params) (st : St) :
    segOK st.step2Started (ensureStep2Open p st).2 = true ∧
    endsOpen st.step2Started (ensureStep2Open p st).2 = true ∧
    (ensureStep2Open p st).1.step2Started = true := by
  unfold ensureStep2Open
  rcases Bool.eq_false_or_eq_true st.step2Started with h1 | h1
  · rw [h1]
    simp only [if_true]
    exact ⟨segOK_true _, endsOpen_true _, h1⟩
  · rw [h1]
    by_cases h2 : st.progressAnnotations.isEmpty
    · simp [h2, segOK, endsOpen, isZAA, isF]
    · simp [h2, segOK, endsOpen, isZAA, isF]

theorem ensure_hadTC (p : Params) (st : St) :
    (ensureStep2Open p st).1.hadToolCalls = st.hadToolCalls := by
  unfold ensureStep2Open
  split <;> rfl

theorem emitReasoning_mem (delta : Json) :
    ∀ e ∈ emitReasoning delta, isZAA e = false ∧ isF e = false := by
  unfold emitReasoning
  split
  · split <;> simp [isZAA, isF]
  · simp

theorem finishToolCalls_mem (p : Params) (st : St) :
    ∀ e ∈ (finishToolCalls p st).2, isZAA e = false ∧ isF e = false := by
  intro e he
  simp only [finishToolCalls, List.mem_append, List.mem_map,
    List.mem_singleton] at he
  rcases he with ⟨x, _, hx⟩ | he
  · rw [← hx]; exact ⟨rfl, rfl⟩
  · rw [he]; exact ⟨rfl, rfl⟩

theorem seg_handleProgress (st : St) (j : Json) :
    segOK st.step2Started (handleProgress st j).2 = true ∧
    (handleProgress st j).1.step2Started = st.step2Started ∧
    (handleProgress st j).1.hadToolCalls = st.hadToolCalls ∧
    endsOpen st.step2Started (handleProgress st j).2 = st.step2Started := by
  unfold handleProgress
  rcases Bool.eq_false_or_eq_true st.step2Started with h1 | h1 <;>
    simp [h1, segOK, endsOpen, isZAA, isF]

theorem seg_handleToolResult (p : Params) (st : St) (j : Json) :
    segOK st.step2Started (handleToolResult p st j).2 = true ∧
    (handleToolResult p st j).1.step2Started = true ∧
    (handleToolResult p st j).1.hadToolCalls = st.hadToolCalls ∧
    endsOpen st.step2Started (handleToolResult p st j).2 = true := by
  obtain ⟨h1, h2, h3⟩ := seg_ensure p st
  unfold handleToolResult
  refine ⟨?_, h3, ensure_hadTC p st, ?_⟩
  · rw [segOK_append, h1, h2]
    simp [segOK, isZAA, isF, endsOpen]
  · rw [endsOpen_append, h2]
    simp [endsOpen, isF]

theorem seg_handleInterrupt (p : Params) (st : St) (j : Json) :
    segOK st.step2Started (handleInterrupt p st j).2 = true ∧
    (handleInterrupt p st j).1.step2Started = true ∧
    (handleInterrupt p st j).1.hadToolCalls = st.hadToolCalls ∧
    endsOpen st.step2Started (handleInterrupt p st j).2 = true := by
  obtain ⟨h1, h2, h3⟩ := seg_ensure p st
  unfold handleInterrupt
  refine ⟨?_, h3, ensure_hadTC p st, ?_⟩
  · rw [segOK_append, h1, h2]
    simp [segOK, isZAA, isF, endsOpen]
  · rw [endsOpen_append, h2]
    simp [endsOpen, isF]

theorem seg_emitContent (p : Params) (st : St) (delta : Json)
    (htc : st.hadToolCalls = true) :
    segOK st.step2Started (emitContent p st delta).2 = true ∧
    (emitContent p st delta).1.step2Started =
      endsOpen st.step2Started (emitContent p st delta).2 ∧
    (emitContent p st delta).1.hadToolCalls = st.hadToolCalls := by
  unfold emitContent
  split
  · split
    · exact ⟨rfl, rfl, rfl⟩
    · rcases Bool.eq_false_or_eq_true (st.hadToolCalls && !st.step2Started)
        with hb | hb
      · rw [hb]
        simp only [if_true]
        obtain ⟨h1, h2, h3⟩ := seg_ensure p st
        refine ⟨?_, ?_, ensure_hadTC p st⟩
        · rw [segOK_append, h1, h2]
          simp [segOK, isZAA]
        · rw [endsOpen_append, h2]
          simp only [endsOpen, isF]
          rw [h3]
          rfl
      · rw [hb]
        simp only [Bool.false_eq_true, if_false]
        have hs2 : st.step2Started = true := by
          rw [htc] at hb
          simpa using hb
        refine ⟨?_, ?_, by trivial⟩
        · rw [hs2]
          exact segOK_true _
        · simp [endsOpen, isF, hs2]
  · exact ⟨rfl, rfl, rfl⟩

theorem seg_finishToolCalls (p : Params) (st : St) (b : Bool) :
    segOK b (finishToolCalls p st).2 = true ∧
    (finishToolCalls p st).1.step2Started = st.step2Started ∧
    (finishToolCalls p st).1.hadToolCalls = true ∧
    endsOpen b (finishToolCalls p st).2 = b := by
  refine ⟨segOK_no_zaa _ (fun e he => (finishToolCalls_mem p st e he).1) b,
    rfl, rfl, endsOpen_no_f _ (fun e he => (finishToolCalls_mem p st e he).2) b⟩

theorem seg_finishStop (p : Params) (st : St)
    (htc : st.hadToolCalls = true) :
    segOK st.step2Started (finishStop p st).2 = true ∧
    (finishStop p st).1.step2Started =
      endsOpen st.step2Started (finishStop p st).2 ∧
    (finishStop p st).1.hadToolCalls = st.hadToolCalls := by
  unfold finishStop
  rcases Bool.eq_false_or_eq_true (st.hadToolCalls && !st.step2Started)
    with hb | hb
  · rw [hb]
    simp only [if_true]
    obtain ⟨h1, h2, h3⟩ := seg_ensure p st
    refine ⟨?_, ?_, ensure_hadTC p st⟩
    · rw [segOK_append, h1, h2]
      simp [segOK, isZAA]
    · rw [endsOpen_append, h2]
      simp only [endsOpen, isF]
      rw [h3]
      rfl
  · rw [hb]
    simp only [Bool.false_eq_true, if_false]
    have hs2 : st.step2Started = true := by
      rw [htc] at hb
      simpa using hb
    refine ⟨?_, ?_, by trivial⟩
    · rw [hs2]
      exact segOK_true _
    · simp [endsOpen, isF, hs2]

theorem isFinish_not_both (c0 : Json)
    (h : isFinish c0 "tool_calls" = true) : isFinish c0 "stop" = false := by
  unfold isFinish at *
  cases hf : c0.get "finish_reason" with
  | none => simp [hf] at h
  | some v =>
      rw [hf] at h
      cases v with
      | str t =>
          have ht : t = "tool_calls" := by simpa using h
          simp [ht]
      | null => cases h
      | bool x => cases h
      | num x => cases h
      | arr x => cases h
      | obj x => cases h

theorem segOK_nil (b : Bool) : segOK b [] = true := rfl

theorem endsOpen_nil (b : Bool) : endsOpen b [] = b := rfl

theorem seg_processChoice (p : Params) (st : St) (c0 : Json)
    (htc : st.hadToolCalls = true) :
    segOK st.step2Started (processChoice p st c0).2 = true ∧
    (processChoice p st c0).1.step2Started =
      endsOpen st.step2Started (processChoice p st c0).2 ∧
    (processChoice p st c0).1.hadToolCalls = true := by
  unfold processChoice
  obtain ⟨hC1, hC2, hC3⟩ := seg_emitContent p
    { st with toolCallMap :=
        accToolCalls ((c0.get "delta").getD (Json.obj [])) st.toolCallMap }
    ((c0.get "delta").getD (Json.obj [])) htc
  dsimp only at hC1 hC2 hC3
  have hG1 : segOK st.step2Started
      (emitReasoning ((c0.get "delta").getD (Json.obj []))) = true :=
    segOK_no_zaa _ (fun e he => (emitReasoning_mem _ e he).1) _
  have hG2 : endsOpen st.step2Started
      (emitReasoning ((c0.get "delta").getD (Json.obj []))) = st.step2Started :=
    endsOpen_no_f _ (fun e he => (emitReasoning_mem _ e he).2) _
  rcases Bool.eq_false_or_eq_true (isFinish c0 "tool_calls") with ht | ht
  · have hs := isFinish_not_both c0 ht
    rw [ht, hs]
    simp only [if_true, Bool.false_eq_true, if_false]
    obtain ⟨hT1, hT2, hT3, hT4⟩ := seg_finishToolCalls p
      (emitContent p
        { st with toolCallMap :=
            accToolCalls ((c0.get "delta").getD (Json.obj [])) st.toolCallMap }
        ((c0.get "delta").getD (Json.obj []))).1
      ((emitContent p
        { st with toolCallMap :=
            accToolCalls ((c0.get "delta").getD (Json.obj [])) st.toolCallMap }
        ((c0.get "delta").getD (Json.obj []))).1.step2Started)
    simp only [List.append_nil, segOK_append, endsOpen_append, hG1, hG2, hC1,
      ← hC2, hT1, hT2, hT4, segOK_nil, endsOpen_nil, Bool.true_and,
      Bool.and_true]
    exact ⟨by trivial, by trivial, hT3⟩
  · rcases Bool.eq_false_or_eq_true (isFinish c0 "stop") with hs | hs
    · rw [ht, hs]
      simp only [if_true, Bool.false_eq_true, if_false]
      obtain ⟨hS1, hS2, hS3⟩ := seg_finishStop p
        (emitContent p
          { st with toolCallMap :=
              accToolCalls ((c0.get "delta").getD (Json.obj [])) st.toolCallMap }
          ((c0.get "delta").getD (Json.obj []))).1
        (by rw [hC3]; exact htc)
      simp only [List.append_nil, segOK_append, endsOpen_append, hG1, hG2, hC1,
        ← hC2, hS1, ← hS2, segOK_nil, endsOpen_nil, Bool.true_and,
        Bool.and_true]
      refine ⟨by trivial, by trivial, by rw [hS3, hC3]; exact htc⟩
    · rw [ht, hs]
      simp only [Bool.false_eq_true, if_false]
      simp only [List.append_nil, segOK_append, endsOpen_append, hG1, hG2, hC1,
        ← hC2, segOK_nil, endsOpen_nil, Bool.true_and, Bool.and_true]
      refine ⟨by trivial, by trivial, by rw [hC3]; exact htc⟩

theorem seg_processParsed (p : Params) (st : St) (j : Json)
    (htc : st.hadToolCalls = true) :
    segOK st.step2Started (processParsed p st j).2 = true ∧
    (processParsed p st j).1.step2Started =
      endsOpen st.step2Started (processParsed p st j).2 ∧
    (processParsed p st j).1.hadToolCalls = true := by
  rcases Bool.eq_false_or_eq_true (truthy (j.get "agent_progress")) with h1 | h1
  · rw [processParsed_eq_progress p st j h1]
    obtain ⟨g1, g2, g3, g4⟩ := seg_handleProgress st j
    exact ⟨g1, by rw [g2, g4], by rw [g3]; exact htc⟩
  · rcases Bool.eq_false_or_eq_true (truthy (j.get "tool_result")) with h2 | h2
    · rw [processParsed_eq_toolResult p st j h1 h2]
      obtain ⟨g1, g2, g3, g4⟩ := seg_handleToolResult p st j
      exact ⟨g1, by rw [g2, g4], by rw [g3]; exact htc⟩
    · rcases Bool.eq_false_or_eq_true (truthy (j.get "tool_interrupt")) with h3 | h3
      · rw [processParsed_eq_interrupt p st j h1 h2 h3]
        obtain ⟨g1, g2, g3, g4⟩ := seg_handleInterrupt p st j
        exact ⟨g1, by rw [g2, g4], by rw [g3]; exact htc⟩
      · rw [processParsed_eq_choice p st j h1 h2 h3]
        cases hc : j.get "choices" with
        | none => exact ⟨rfl, rfl, htc⟩
        | some v =>
            cases v with
            | arr elems =>
                cases elems with
                | nil => exact ⟨rfl, rfl, htc⟩
                | cons c0 rest => exact seg_processChoice p st c0 htc
            | null => exact ⟨rfl, rfl, htc⟩
            | bool x => exact ⟨rfl, rfl, htc⟩
            | num x => exact ⟨rfl, rfl, htc⟩
            | str x => exact ⟨rfl, rfl, htc⟩
            | obj x => exact ⟨rfl, rfl, htc⟩

theorem seg_runFrom (p : Params) (st : St) (es : List Json)
    (htc : st.hadToolCalls = true) :
    segOK st.step2Started (runFrom p st es).2 = true := by
  induction es generalizing st with
  | nil => rfl
  | cons j js ih =>
      obtain ⟨g1, g2, g3⟩ := seg_processParsed p st j htc
      simp only [runFrom, segOK_append]
      rw [g1, ← g2, ih _ g3]
      rfl

theorem runFrom_append (p : Params) (st : St) (l1 l2 : List Json) :
    runFrom p st (l1 ++ l2) =
      ((runFrom p (runFrom p st l1).1 l2).1,
       (runFrom p st l1).2 ++ (runFrom p (runFrom p st l1).1 l2).2) := by
  induction l1 generalizing st with
  | nil => simp [runFrom]
  | cons j js ih => simp [runFrom, ih]

theorem runFrom_plain_state (p : Params) (st : St) (es : List Json)
    (hs2 : st.step2Started = false) (htc : st.hadToolCalls = false)
    (hall : es.all plainEvent = true) :
    (runFrom p st es).1.step2Started = false ∧
    (runFrom p st es).1.hadToolCalls = false := by
  induction es generalizing st with
  | nil => exact ⟨hs2, htc⟩
  | cons j js ih =>
      simp only [List.all_cons, Bool.and_eq_true] at hall
      obtain ⟨_, hstep, htc2⟩ := c10_step p st j hs2 htc hall.1
      simpa [runFrom] using ih (processParsed p st j).1 hstep htc2 hall.2

theorem memf_ensure (p : Params) (st : St) :
    ∀ e ∈ (ensureStep2Open p st).2,
      isF e = true → e = Eff.emit "f" (stepOpenObj p.step2Id) := by
  unfold ensureStep2Open
  by_cases h1 : st.step2Started
  · simp [h1]
  · by_cases h2 : st.progressAnnotations.isEmpty <;>
      simp [h1, h2, isF]

theorem noECont_ensure (p : Params) (st : St) :
    ∀ e ∈ (ensureStep2Open p st).2, isECont e = false := by
  unfold ensureStep2Open
  by_cases h1 : st.step2Started
  · simp [h1]
  · by_cases h2 : st.progressAnnotations.isEmpty <;>
      simp [h1, h2, isECont]

theorem memf_handleProgress (p : Params) (st : St) (j : Json) :
    ∀ e ∈ (handleProgress st j).2,
      isF e = true → e = Eff.emit "f" (stepOpenObj p.step2Id) := by
  unfold handleProgress
  split <;> simp [isF]

theorem noECont_handleProgress (st : St) (j : Json) :
    ∀ e ∈ (handleProgress st j).2, isECont e = false := by
  unfold handleProgress
  split <;> simp [isECont]

theorem memf_handleToolResult (p : Params) (st : St) (j : Json) :
    ∀ e ∈ (handleToolResult p st j).2,
      isF e = true → e = Eff.emit "f" (stepOpenObj p.step2Id) := by
  unfold handleToolResult
  intro e he
  simp only [List.mem_append, List.mem_singleton] at he
  rcases he with he | he
  · exact memf_ensure p st e he
  · rw [he]; simp [isF]

theorem memf_handleInterrupt (p : Params) (st : St) (j : Json) :
    ∀ e ∈ (handleInterrupt p st j).2,
      isF e = true → e = Eff.emit "f" (stepOpenObj p.step2Id) := by
  unfold handleInterrupt
  intro e he
  simp only [List.mem_append, List.mem_cons, List.mem_singleton,
    List.not_mem_nil] at he
  rcases he with he | he | he | he
  · exact memf_ensure p st e he
  · rw [he]; simp [isF]
  · rw [he]; simp [isF]
  · exact absurd he (by simp)

theorem memf_emitReasoning (p : Params) (delta : Json) :
    ∀ e ∈ emitReasoning delta,
      isF e = true → e = Eff.emit "f" (stepOpenObj p.step2Id) := by
  intro e he
  rw [(emitReasoning_mem delta e he).2]
  simp

theorem noECont_emitReasoning (delta : Json) :
    ∀ e ∈ emitReasoning delta, isECont e = false := by
  unfold emitReasoning
  split
  · split <;> simp [isECont]
  · simp

theorem memf_emitContent (p : Params) (st : St) (delta : Json) :
    ∀ e ∈ (emitContent p st delta).2,
      isF e = true → e = Eff.emit "f" (stepOpenObj p.step2Id) := by
  unfold emitContent
  split
  · split
    · simp
    · split
      · intro e he
        simp only [List.mem_append, List.mem_singleton] at he
        rcases he with he | he
        · exact memf_ensure p _ e he
        · rw [he]; simp [isF]
      · simp [isF]
  · simp

theorem noECont_emitContent (p : Params) (st : St) (delta : Json) :
    ∀ e ∈ (emitContent p st delta).2, isECont e = false := by
  unfold emitContent
  split
  · split
    · simp
    · split
      · intro e he
        simp only [List.mem_append, List.mem_singleton] at he
        rcases he with he | he
        · exact noECont_ensure p _ e he
        · rw [he]; rfl
      · simp [isECont]
  · simp

theorem memf_finishToolCalls (p : Params) (st : St) :
    ∀ e ∈ (finishToolCalls p st).2,
      isF e = true → e = Eff.emit "f" (stepOpenObj p.step2Id) := by
  intro e he
  rw [(finishToolCalls_mem p st e he).2]
  simp

theorem noECont_nines (p : Params) (m : List (Int × ToolCallAcc)) :
    ∀ e ∈ m.map (nineEff p), isECont e = false := by
  intro e he
  simp only [List.mem_map] at he
  obtain ⟨x, _, hx⟩ := he
  rw [← hx]
  rfl

theorem memf_finishStop (p : Params) (st : St) :
    ∀ e ∈ (finishStop p st).2,
      isF e = true → e = Eff.emit "f" (stepOpenObj p.step2Id) := by
  unfold finishStop
  split
  · intro e he
    simp only [List.mem_append, List.mem_cons, List.mem_singleton,
      List.not_mem_nil] at he
    rcases he with he | he | he | he
    · exact memf_ensure p _ e he
    · rw [he]; simp [isF]
    · rw [he]; simp [isF]
    · exact absurd he (by simp)
  · simp [isF]

theorem noECont_finishStop (p : Params) (st : St) :
    ∀ e ∈ (finishStop p st).2, isECont e = false := by
  unfold finishStop
  split
  · intro e he
    simp only [List.mem_append, List.mem_cons, List.mem_singleton,
      List.not_mem_nil] at he
    rcases he with he | he | he | he
    · exact noECont_ensure p _ e he
    · rw [he]; rfl
    · rw [he]; rfl
    · exact absurd he (by simp)
  · simp [isECont, stopFinishObj, doneObj, zeroUsage]

theorem noECont_handleToolResult (p : Params) (st : St) (j : Json) :
    ∀ e ∈ (handleToolResult p st j).2, isECont e = false := by
  unfold handleToolResult
  intro e he
  simp only [List.mem_append, List.mem_singleton] at he
  rcases he with he | he
  · exact noECont_ensure p st e he
  · rw [he]; rfl

theorem noECont_handleInterrupt (p : Params) (st : St) (j : Json) :
    ∀ e ∈ (handleInterrupt p st j).2, isECont e = false := by
  unfold handleInterrupt
  intro e he
  simp only [List.mem_append, List.mem_cons, List.mem_singleton,
    List.not_mem_nil] at he
  rcases he with he | he | he | he
  · exact noECont_ensure p st e he
  · rw [he]; rfl
  · rw [he]; rfl
  · exact absurd he (by simp)

theorem noECont_processChoice (p : Params) (st : St) (c0 : Json)
    (hfin : isFinish c0 "tool_calls" = false) :
    ∀ e ∈ (processChoice p st c0).2, isECont e = false := by
  unfold processChoice
  rw [hfin]
  simp only [Bool.false_eq_true, if_false]
  intro e he
  simp only [List.mem_append, List.not_mem_nil, or_false] at he
  rcases he with (he | he) | he
  · exact noECont_emitReasoning _ e he
  · exact noECont_emitContent p _ _ e he
  · rcases (by split at he <;> [exact Or.inl he; exact Or.inr he] :
        e ∈ (finishStop p _).2 ∨ e ∈ ([] : List Eff)) with hx | hx
    · exact noECont_finishStop p _ e hx
    · exact absurd hx (by simp)

theorem memf_processChoice (p : Params) (st : St) (c0 : Json) :
    ∀ e ∈ (processChoice p st c0).2,
      isF e = true → e = Eff.emit "f" (stepOpenObj p.step2Id) := by
  unfold processChoice
  intro e he
  simp only [List.mem_append] at he
  rcases he with ((he | he) | he) | he
  · exact memf_emitReasoning p _ e he
  · exact memf_emitContent p _ _ e he
  · rcases (by split at he <;> [exact Or.inl he; exact Or.inr he] :
        e ∈ (finishToolCalls p _).2 ∨ e ∈ ([] : List Eff)) with hx | hx
    · exact memf_finishToolCalls p _ e hx
    · exact absurd hx (by simp)
  · rcases (by split at he <;> [exact Or.inl he; exact Or.inr he] :
        e ∈ (finishStop p _).2 ∨ e ∈ ([] : List Eff)) with hx | hx
    · exact memf_finishStop p _ e hx
    · exact absurd hx (by simp)

theorem memf_processParsed (p : Params) (st : St) (j : Json) :
    ∀ e ∈ (processParsed p st j).2,
      isF e = true → e = Eff.emit "f" (stepOpenObj p.step2Id) := by
  rcases Bool.eq_false_or_eq_true (truthy (j.get "agent_progress")) with h1 | h1
  · rw [processParsed_eq_progress p st j h1]
    exact memf_handleProgress p st j
  · rcases Bool.eq_false_or_eq_true (truthy (j.get "tool_result")) with h2 | h2
    · rw [processParsed_eq_toolResult p st j h1 h2]
      exact memf_handleToolResult p st j
    · rcases Bool.eq_false_or_eq_true (truthy (j.get "tool_interrupt")) with h3 | h3
      · rw [processParsed_eq_interrupt p st j h1 h2 h3]
        exact memf_handleInterrupt p st j
      · rw [processParsed_eq_choice p st j h1 h2 h3]
        cases hc : j.get "choices" with
        | none => simp
        | some v =>
            cases v with
            | arr elems =>
                cases elems with
                | nil => simp
                | cons c0 rest => exact memf_processChoice p st c0
            | null => simp
            | bool x => simp
            | num x => simp
            | str x => simp
            | obj x => simp

theorem memf_runFrom (p : Params) (st : St) (es : List Json) :
    ∀ e ∈ (runFrom p st es).2,
      isF e = true → e = Eff.emit "f" (stepOpenObj p.step2Id) := by
  induction es generalizing st with
  | nil => simp [runFrom]
  | cons j js ih =>
      intro e he
      simp only [runFrom, List.mem_append] at he
      rcases he with he | he
      · exact memf_processParsed p st j e he
      · exact ih _ e he

theorem noECont_processParsed (p : Params) (st : St) (j : Json)
    (hj : isToolCallsFinishEvent j = false) :
    ∀ e ∈ (processParsed p st j).2, isECont e = false := by
  rcases Bool.eq_false_or_eq_true (truthy (j.get "agent_progress")) with h1 | h1
  · rw [processParsed_eq_progress p st j h1]
    exact noECont_handleProgress st j
  · rcases Bool.eq_false_or_eq_true (truthy (j.get "tool_result")) with h2 | h2
    · rw [processParsed_eq_toolResult p st j h1 h2]
      exact noECont_handleToolResult p st j
    · rcases Bool.eq_false_or_eq_true (truthy (j.get "tool_interrupt")) with h3 | h3
      · rw [processParsed_eq_interrupt p st j h1 h2 h3]
        exact noECont_handleInterrupt p st j
      · rw [processParsed_eq_choice p st j h1 h2 h3]
        cases hc : j.get "choices" with
        | none => simp
        | some v =>
            cases v with
            | arr elems =>
                cases elems with
                | nil => simp
                | cons c0 rest =>
                    have hfin : isFinish c0 "tool_calls" = false := by
                      by_contra hx
                      simp only [Bool.not_eq_false] at hx
                      have hy : isToolCallsFinishEvent j = true := by
                        simp [isToolCallsFinishEvent, choiceOf, isProgressEvent,
                          h1, h2, h3, hc, hx]
                      rw [hy] at hj
                      cases hj
                    exact noECont_processChoice p st c0 hfin
            | null => simp
            | bool x => simp
            | num x => simp
            | str x => simp
            | obj x => simp

theorem noECont_runFrom (p : Params) (st : St) (es : List Json)
    (hall : es.all (fun j => !isToolCallsFinishEvent j) = true) :
    ∀ e ∈ (runFrom p st es).2, isECont e = false := by
  induction es generalizing st with
  | nil => simp [runFrom]
  | cons j js ih =>
      simp only [List.all_cons, Bool.and_eq_true, Bool.not_eq_true'] at hall
      intro e he
      simp only [runFrom, List.mem_append] at he
      rcases he with he | he
      · exact noECont_processParsed p st j hall.1 e he
      · exact ih _ (by simpa [List.all_eq_true, Bool.not_eq_true'] using hall.2) e he

theorem isTCFE_inv (j : Json) (h : isToolCallsFinishEvent j = true) :
    truthy (j.get "agent_progress") = false ∧
    truthy (j.get "tool_result") = false ∧
    truthy (j.get "tool_interrupt") = false ∧
    ∃ c0 rest, j.get "choices" = some (.arr (c0 :: rest)) ∧
      isFinish c0 "tool_calls" = true := by
  unfold isToolCallsFinishEvent choiceOf isProgressEvent at h
  rcases Bool.eq_false_or_eq_true (truthy (j.get "agent_progress")) with h1 | h1
  · simp [h1] at h
  rcases Bool.eq_false_or_eq_true (truthy (j.get "tool_result")) with h2 | h2
  · simp [h1, h2] at h
  rcases Bool.eq_false_or_eq_true (truthy (j.get "tool_interrupt")) with h3 | h3
  · simp [h1, h2, h3] at h
  refine ⟨h1, h2, h3, ?_⟩
  rw [if_neg (by simp [h1, h2, h3])] at h
  cases hc : j.get "choices" with
  | none => rw [hc] at h; cases h
  | some v =>
      rw [hc] at h
      cases v with
      | arr elems =>
          cases elems with
          | nil => cases h
          | cons c0 rest => exact ⟨c0, rest, rfl, h⟩
      | null => cases h
      | bool x => cases h
      | num x => cases h
      | str x => cases h
      | obj x => cases h

theorem processChoice_tc_shape (p : Params) (st : St) (c0 : Json)
    (hs2 : st.step2Started = false) (htc : st.hadToolCalls = false)
    (hfin : isFinish c0 "tool_calls" = true) :
    ∃ X, (processChoice p st c0).2 = X ++ [Eff.emit "e" contFinishObj] ∧
      (∀ e ∈ X, isECont e = false) ∧
      (processChoice p st c0).1.step2Started = false ∧
      (processChoice p st c0).1.hadToolCalls = true := by
  have hns := isFinish_not_both c0 hfin
  obtain ⟨hcst, _⟩ := emitContent_plain p
    { st with toolCallMap :=
        accToolCalls ((c0.get "delta").getD (Json.obj [])) st.toolCallMap }
    ((c0.get "delta").getD (Json.obj [])) htc
  unfold processChoice
  rw [hfin, hns]
  simp only [if_true, Bool.false_eq_true, if_false, List.append_nil, hcst,
    finishToolCalls]
  refine ⟨(emitReasoning ((c0.get "delta").getD (Json.obj [])) ++
      (emitContent p
        { st with toolCallMap :=
            accToolCalls ((c0.get "delta").getD (Json.obj [])) st.toolCallMap }
        ((c0.get "delta").getD (Json.obj []))).2) ++
      List.map (nineEff p)
        (accToolCalls ((c0.get "delta").getD (Json.obj [])) st.toolCallMap),
    ?_, ?_, hs2, trivial⟩
  · simp [List.append_assoc]
  · intro e he
    simp only [List.mem_append] at he
    rcases he with (he | he) | he
    · exact noECont_emitReasoning _ e he
    · exact noECont_emitContent p _ _ e he
    · exact noECont_nines p _ e he

theorem tc_event_shape (p : Params) (st : St) (j : Json)
    (hs2 : st.step2Started = false) (htc : st.hadToolCalls = false)
    (hTC : isToolCallsFinishEvent j = true) :
    ∃ X, (processParsed p st j).2 = X ++ [Eff.emit "e" contFinishObj] ∧
      (∀ e ∈ X, isECont e = false) ∧
      (processParsed p st j).1.step2Started = false ∧
      (processParsed p st j).1.hadToolCalls = true := by
  obtain ⟨h1, h2, h3, c0, rest, hc, hfin⟩ := isTCFE_inv j hTC
  rw [processParsed_eq_choice p st j h1 h2 h3, hc]
  exact processChoice_tc_shape p st c0 hs2 htc hfin

theorem c3check_skip (l1 l2 : List Eff) (h : ∀ e ∈ l1, isECont e = false) :
    c3check (l1 ++ l2) = c3check l2 := by
  induction l1 with
  | nil => rfl
  | cons e l ih =>
      rw [List.cons_append, c3check, h e (by simp), if_neg (by simp)]
      exact ih (fun x hx => h x (by simp [hx]))

theorem c3check_econt (e : Eff) (l : List Eff) (he : isECont e = true) :
    c3check (e :: l) = segOK false l := by
  rw [c3check, he, if_pos rfl]

/-- C3 (amended): the step-boundary rule as the two-step implementation
satisfies it.  For an input of the form `pre ++ [jTC] ++ mid`, where
`pre` contains no tool-result, no tool-interrupt and no `tool_calls`
finish (so step 2 is not opened early) and `jTC` carries the first
`finish_reason "tool_calls"`, every text (`0:`), annotation (`2:`) or
tool-result (`a:`) line after the first continued `e:` step-finish line
is preceded by a new `f:` step-open line emitted after that `e:` line;
moreover every `f:` line other than the initial step-1 open carries the
step-2 message id, which is fresh whenever the two generated ids differ.
The rule holds only for this first round: a second `tool_calls` finish
does not reopen a step (see the counterexample). -/
theorem c3_step_boundary (p : Params) (pre mid : List Json) (jTC : Json)
    (hpre : pre.all plainEvent = true)
    (hTC : isToolCallsFinishEvent jTC = true) :
    c3check (runEvents p (pre ++ jTC :: mid)) = true ∧
    ∀ e ∈ (runFrom p St.init (pre ++ jTC :: mid)).2,
      isF e = true → e = Eff.emit "f" (stepOpenObj p.step2Id) := by
  refine ⟨?_, memf_runFrom p St.init _⟩
  obtain ⟨hps2, hptc⟩ := runFrom_plain_state p St.init pre rfl rfl hpre
  obtain ⟨X, hX, hXno, hs2TC, htcTC⟩ :=
    tc_event_shape p (runFrom p St.init pre).1 jTC hps2 hptc hTC
  have htr : runEvents p (pre ++ jTC :: mid) =
      (Eff.emit "f" (stepOpenObj p.step1Id) ::
        ((runFrom p St.init pre).2 ++ X)) ++
      (Eff.emit "e" contFinishObj ::
        (runFrom p
          (processParsed p (runFrom p St.init pre).1 jTC).1 mid).2) := by
    rw [runEvents, runFrom_append]
    simp only [runFrom]
    rw [hX]
    simp [List.append_assoc]
  rw [htr]
  rw [c3check_skip _ _ ?hno]
  case hno =>
    intro e he
    simp only [List.mem_cons, List.mem_append] at he
    rcases he with he | he | he
    · rw [he]; rfl
    · exact noECont_runFrom p St.init pre
        (by
          rw [List.all_eq_true] at hpre ⊢
          intro x hx
          have := hpre x hx
          simp only [plainEvent, Bool.and_eq_true] at this
          exact this.2) e he
    · exact hXno e he
  rw [c3check_econt _ _ (by rfl)]
  have := seg_runFrom p (processParsed p (runFrom p St.init pre).1 jTC).1 mid htcTC
  rw [hs2TC] at this
  exact this

/-- Witness for C3 (amended): a single tool round followed by a tool
result, text and stop satisfies the step-boundary check. -/
theorem c3_step_boundary_witness :
    c3check (runEvents pCex
      ([toolDeltaEv 0 "call_a" "fetch" ""] ++ finishEv "tool_calls" ::
        [toolResultEv "call_a" (.num 7), contentEv "hi", finishEv "stop"])) =
      true ∧
    ∀ e ∈ (runFrom pCex St.init
      ([toolDeltaEv 0 "call_a" "fetch" ""] ++ finishEv "tool_calls" ::
        [toolResultEv "call_a" (.num 7), contentEv "hi", finishEv "stop"])).2,
      isF e = true → e = Eff.emit "f" (stepOpenObj pCex.step2Id) :=
  c3_step_boundary pCex [toolDeltaEv 0 "call_a" "fetch" ""]
    [toolResultEv "call_a" (.num 7), contentEv "hi", finishEv "stop"]
    (finishEv "tool_calls") (by rfl) (by rfl)

/-- Scan corresponding to the claim as frozen: EVERY continued
step-finish line closes the step, and a new `f:` line must re-open a
step before any later text, annotation or tool-result line. -/
def stepRuleScan (opn : Bool) : List Eff → Bool
  | [] => true
  | e :: rest =>
      if isECont e then stepRuleScan false rest
      else (!(isZAA e) || opn) && stepRuleScan (opn || isF e) rest

/-- Counterexample to C3 as frozen: in a turn with two tool rounds, the
second `e:{isContinued:true}` line is followed by a `0:` text line with
no `f:` step-open line in between — `step2Started` is already true, so
no new step is opened for the third step the protocol would need. -/
theorem c3_counterexample :
    stepRuleScan false (runEvents pCex
      [toolDeltaEv 0 "call_a" "fetch" "", finishEv "tool_calls",
       toolResultEv "call_a" (.num 7),
       toolDeltaEv 1 "call_b" "grep" "", finishEv "tool_calls",
       contentEv "hi", finishEv "stop"]) = false := by rfl


/-! ## C5 — the mirror persists exactly the matched tool calls -/

/-- Id announced by a `9:` tool-call line (string `toolCallId` field);
`none` for any other line. -/
def idOf9 (l : String × Json) : Option String :=
  if l.1 = "9" then
    match l.2.get "toolCallId" with
    | some (.str id) => some id
    | _ => none
  else none

/-- Id matched by an `a:` tool-result line; `none` for any other line. -/
def idOfA (l : String × Json) : Option String :=
  if l.1 = "a" then
    match l.2.get "toolCallId" with
    | some (.str id) => some id
    | _ => none
  else none

/-- The lines contain a `9:` line for this id. -/
def has9 : List (String × Json) → String → Bool
  | [], _ => false
  | l :: rest, id => if idOf9 l = some id then true else has9 rest id

/-- The lines contain an `a:` line for this id. -/
def hasA : List (String × Json) → String → Bool
  | [], _ => false
  | l :: rest, id => if idOfA l = some id then true else hasA rest id

/-- The LAST `a:` line for this id among the lines carries a `result`
field (each `a:` line overwrites the stored result, a result-less one
clearing it); `false` when there is no `a:` line for the id. -/
def resAfter : List (String × Json) → String → Bool
  | [], _ => false
  | l :: rest, id =>
      if idOfA l = some id ∧ hasA rest id = false then (l.2.get "result").isSome
      else resAfter rest id

/-- After the LAST `9:` line for this id there is an `a:` line for the
same id and the LAST such `a:` line carries a `result` field: the record
the mirror ends up with carries a result. -/
def afterLast9 : List (String × Json) → String → Bool
  | [], _ => false
  | l :: rest, id =>
      if idOf9 l = some id ∧ has9 rest id = false then resAfter rest id
      else afterLast9 rest id

/-- String payload contributed by a line to the mirror's text content
(`0:` lines only). -/
def text0 (l : String × Json) : String :=
  if l.1 = "0" then
    match l.2 with
    | .str s => s
    | _ => ""
  else ""

/-- In-order concatenation of the `0:` string payloads. -/
def concatTexts : List (String × Json) → String
  | [] => ""
  | l :: rest => text0 l ++ concatTexts rest

/-- First record stored for the id in the mirror's tool-call map. -/
def lookupTC : List (String × SavedTC) → String → Option SavedTC
  | [], _ => none
  | (k, v) :: rest, id => if k = id then some v else lookupTC rest id

/-- The map holds a record for the id. -/
def memTC (m : List (String × SavedTC)) (id : String) : Bool :=
  (lookupTC m id).isSome

/-- The map holds a record with an attached result for the id. -/
def compTC (m : List (String × SavedTC)) (id : String) : Bool :=
  match lookupTC m id with
  | some tc => tc.result.isSome
  | none => false

/-- A part is the persisted invocation for the id: it has a
`toolInvocation` object whose `toolCallId` is the id. -/
def partIsInvocationFor (j : Json) (id : String) : Bool :=
  match j.get "toolInvocation" with
  | some ti =>
      match ti.get "toolCallId" with
      | some (.str k) => k == id
      | _ => false
  | _ => false

theorem idOf9_tag {l : String × Json} {id : String} (h : idOf9 l = some id) :
    l.1 = "9" := by
  unfold idOf9 at h
  split at h
  · assumption
  · exact Option.noConfusion h

theorem idOfA_tag {l : String × Json} {id : String} (h : idOfA l = some id) :
    l.1 = "a" := by
  unfold idOfA at h
  split at h
  · assumption
  · exact Option.noConfusion h

theorem idOfA_none_of_9 {l : String × Json} {id : String}
    (h : idOf9 l = some id) : idOfA l = none := by
  unfold idOfA
  rw [idOf9_tag h]
  rfl

/-- Effect of the mirror's `parseLine` on the tool-call map, by line kind. -/
theorem parseSaveLine_tc (acc : SaveAcc) (l : String × Json) :
    (parseSaveLine acc l).toolCalls =
      (match idOf9 l with
       | some id =>
           saveSet acc.toolCalls id ⟨l.2.get "toolName", l.2.get "args", none⟩
       | none =>
           match idOfA l with
           | some id => saveUpdResult acc.toolCalls id (l.2.get "result")
           | none => acc.toolCalls) := by
  unfold parseSaveLine idOf9 idOfA
  by_cases h0 : l.1 = "0"
  · have h9 : ¬ l.1 = "9" := by rw [h0]; decide
    have ha : ¬ l.1 = "a" := by rw [h0]; decide
    rw [if_pos h0, if_neg h9, if_neg ha]
    cases l.2 <;> rfl
  · rw [if_neg h0]
    by_cases h9 : l.1 = "9"
    · rw [if_pos h9]
      have ha : ¬ l.1 = "a" := by rw [h9]; decide
      cases hg : l.2.get "toolCallId" with
      | none => simp [hg, if_pos h9, if_neg ha]
      | some j => cases j <;> simp [hg, if_pos h9, if_neg ha]
    · rw [if_neg h9]
      by_cases ha : l.1 = "a"
      · rw [if_pos ha]
        cases hg : l.2.get "toolCallId" with
        | none => simp [hg, if_neg h9, if_pos ha]
        | some j => cases j <;> simp [hg, if_neg h9, if_pos ha]
      · rw [if_neg ha]
        simp [if_neg h9, if_neg ha]

/-- Effect of the mirror's `parseLine` on the accumulated text. -/
theorem parseSaveLine_text (acc : SaveAcc) (l : String × Json) :
    (parseSaveLine acc l).textContent = acc.textContent ++ text0 l := by
  unfold parseSaveLine text0
  by_cases h0 : l.1 = "0"
  · rw [if_pos h0, if_pos h0]
    cases l.2 <;> simp
  · rw [if_neg h0, if_neg h0]
    by_cases h9 : l.1 = "9"
    · rw [if_pos h9]
      cases hg : l.2.get "toolCallId" with
      | none => simp
      | some j => cases j <;> simp
    · rw [if_neg h9]
      by_cases ha : l.1 = "a"
      · rw [if_pos ha]
        cases hg : l.2.get "toolCallId" with
        | none => simp
        | some j => cases j <;> simp
      · rw [if_neg ha]; simp

theorem lookupTC_saveSet_self (m : List (String × SavedTC)) (k : String)
    (v : SavedTC) : lookupTC (saveSet m k v) k = some v := by
  induction m with
  | nil => simp [saveSet, lookupTC]
  | cons e t ih =>
      obtain ⟨k0, v0⟩ := e
      by_cases hk : k0 = k
      · simp [saveSet, hk, lookupTC]
      · simp [saveSet, hk, lookupTC, ih]

theorem lookupTC_saveSet_other (m : List (String × SavedTC)) (k id : String)
    (v : SavedTC) (h : ¬ (k = id)) :
    lookupTC (saveSet m k v) id = lookupTC m id := by
  induction m with
  | nil => simp [saveSet, lookupTC, h]
  | cons e t ih =>
      obtain ⟨k0, v0⟩ := e
      by_cases hk : k0 = k
      · subst hk
        simp [saveSet, lookupTC, h]
      · simp [saveSet, hk, lookupTC, ih]

theorem lookupTC_upd_self (m : List (String × SavedTC)) (k : String)
    (r : Option Json) :
    lookupTC (saveUpdResult m k r) k =
      (lookupTC m k).map (fun v => { v with result := r }) := by
  induction m with
  | nil => simp [saveUpdResult, lookupTC]
  | cons e t ih =>
      obtain ⟨k0, v0⟩ := e
      by_cases hk : k0 = k
      · subst hk
        simp [saveUpdResult, lookupTC]
      · simp [saveUpdResult, hk, lookupTC, ih]

theorem lookupTC_upd_other (m : List (String × SavedTC)) (k id : String)
    (r : Option Json) (h : ¬ (k = id)) :
    lookupTC (saveUpdResult m k r) id = lookupTC m id := by
  induction m with
  | nil => simp [saveUpdResult, lookupTC]
  | cons e t ih =>
      obtain ⟨k0, v0⟩ := e
      by_cases hk : k0 = k
      · subst hk
        simp [saveUpdResult, lookupTC, h]
      · simp [saveUpdResult, hk, lookupTC, ih]

theorem afterLast9_no9 (lines : List (String × Json)) (id : String)
    (h : has9 lines id = false) : afterLast9 lines id = false := by
  induction lines with
  | nil => rfl
  | cons l rest ih =>
      unfold has9 at h
      by_cases hc : idOf9 l = some id
      · rw [if_pos hc] at h
        exact Bool.noConfusion h
      · rw [if_neg hc] at h
        unfold afterLast9
        rw [if_neg (by intro hand; exact hc hand.1)]
        exact ih h

theorem resAfter_noA (lines : List (String × Json)) (id : String)
    (h : hasA lines id = false) : resAfter lines id = false := by
  induction lines with
  | nil => rfl
  | cons l rest ih =>
      unfold hasA at h
      by_cases hc : idOfA l = some id
      · rw [if_pos hc] at h
        exact Bool.noConfusion h
      · rw [if_neg hc] at h
        unfold resAfter
        rw [if_neg (by intro hand; exact hc hand.1)]
        exact ih h

/-- Invariant of the mirror's fold: the final record for an id carries a
result exactly when the last `a:` line after the last `9:` line for the
id carries one, or — when the lines touch the id only through `a:`
lines or not at all — according to the starting accumulator. -/
theorem fold_comp (lines : List (String × Json)) :
    ∀ (acc : SaveAcc) (id : String),
      compTC (lines.foldl parseSaveLine acc).toolCalls id =
        (afterLast9 lines id ||
         (!has9 lines id && hasA lines id && memTC acc.toolCalls id &&
           resAfter lines id) ||
         (!has9 lines id && !hasA lines id && compTC acc.toolCalls id)) := by
  induction lines with
  | nil =>
      intro acc id
      simp [afterLast9, has9, hasA, resAfter]
  | cons l rest ih =>
      intro acc id
      rw [List.foldl_cons, ih (parseSaveLine acc l) id]
      rw [parseSaveLine_tc]
      simp only [has9, hasA, afterLast9, resAfter]
      cases h9l : idOf9 l with
      | some id9 =>
          have hal : idOfA l = none := idOfA_none_of_9 h9l
          simp only [hal]
          by_cases hid : id9 = id
          · subst hid
            have hm : memTC (saveSet acc.toolCalls id9
                ⟨l.2.get "toolName", l.2.get "args", none⟩) id9 = true := by
              simp [memTC, lookupTC_saveSet_self]
            have hc : compTC (saveSet acc.toolCalls id9
                ⟨l.2.get "toolName", l.2.get "args", none⟩) id9 = false := by
              simp [compTC, lookupTC_saveSet_self]
            cases h9r : has9 rest id9 with
            | false =>
                have hAL := afterLast9_no9 rest id9 h9r
                cases hA : hasA rest id9 with
                | false =>
                    have hR := resAfter_noA rest id9 hA
                    simp [hm, hc, h9r, hAL, hA, hR]
                | true => simp [hm, hc, h9r, hAL, hA]
            | true => simp [hm, hc, h9r]
          · have hm : memTC (saveSet acc.toolCalls id9
                ⟨l.2.get "toolName", l.2.get "args", none⟩) id =
                memTC acc.toolCalls id := by
              simp [memTC, lookupTC_saveSet_other _ _ _ _ hid]
            have hc : compTC (saveSet acc.toolCalls id9
                ⟨l.2.get "toolName", l.2.get "args", none⟩) id =
                compTC acc.toolCalls id := by
              simp [compTC, lookupTC_saveSet_other _ _ _ _ hid]
            simp [hm, hc, hid]
      | none =>
          cases hal : idOfA l with
          | some idA =>
              by_cases hid : idA = id
              · subst hid
                have hm : memTC (saveUpdResult acc.toolCalls idA
                    (l.2.get "result")) idA = memTC acc.toolCalls idA := by
                  unfold memTC
                  rw [lookupTC_upd_self]
                  cases lookupTC acc.toolCalls idA <;> rfl
                have hc : compTC (saveUpdResult acc.toolCalls idA
                    (l.2.get "result")) idA =
                    (memTC acc.toolCalls idA && (l.2.get "result").isSome) := by
                  unfold compTC memTC
                  rw [lookupTC_upd_self]
                  cases lookupTC acc.toolCalls idA with
                  | none => rfl
                  | some tc => simp
                cases hA : hasA rest idA with
                | false =>
                    have hR := resAfter_noA rest idA hA
                    simp only [hm, hc, hA, hR]
                    cases afterLast9 rest idA <;>
                      cases has9 rest idA <;>
                      cases memTC acc.toolCalls idA <;>
                      cases (l.2.get "result").isSome <;> simp
                | true =>
                    simp only [hm, hc, hA]
                    cases afterLast9 rest idA <;>
                      cases has9 rest idA <;>
                      cases memTC acc.toolCalls idA <;>
                      cases resAfter rest idA <;> simp
              · have hm : memTC (saveUpdResult acc.toolCalls idA
                    (l.2.get "result")) id = memTC acc.toolCalls id := by
                  simp [memTC, lookupTC_upd_other _ _ _ _ hid]
                have hc : compTC (saveUpdResult acc.toolCalls idA
                    (l.2.get "result")) id = compTC acc.toolCalls id := by
                  simp [compTC, lookupTC_upd_other _ _ _ _ hid]
                simp [hm, hc, hid]
          | none => simp

/-- The mirror's accumulated text is the concatenation of the `0:`
string payloads. -/
theorem fold_text (lines : List (String × Json)) :
    ∀ acc : SaveAcc,
      (lines.foldl parseSaveLine acc).textContent =
        acc.textContent ++ concatTexts lines := by
  induction lines with
  | nil => intro acc; simp [concatTexts]
  | cons l rest ih =>
      intro acc
      rw [List.foldl_cons, ih, parseSaveLine_text, concatTexts,
        String.append_assoc]

/-- Keys of the mirror's tool-call map. -/
def keysTC (m : List (String × SavedTC)) : List String := m.map Prod.fst

theorem keysTC_saveSet_sub (m : List (String × SavedTC)) (k : String)
    (v : SavedTC) :
    ∀ x ∈ keysTC (saveSet m k v), x ∈ keysTC m ∨ x = k := by
  induction m with
  | nil =>
      intro x hx
      simp [saveSet, keysTC] at hx
      right; exact hx
  | cons e t ih =>
      obtain ⟨k0, v0⟩ := e
      intro x hx
      by_cases hk : k0 = k
      · simp only [saveSet, if_pos hk, keysTC, List.map_cons,
          List.mem_cons] at hx
        rcases hx with hx | hx
        · right; exact hx
        · left
          simp [keysTC, List.mem_cons]
          right
          simpa [keysTC] using hx
      · simp only [saveSet, if_neg hk, keysTC, List.map_cons,
          List.mem_cons] at hx
        rcases hx with hx | hx
        · left; simp [keysTC, hx]
        · rcases ih x (by simpa [keysTC] using hx) with h | h
          · left
            simp [keysTC, List.mem_cons]
            right
            simpa [keysTC] using h
          · right; exact h

theorem keysTC_saveSet_nodup (m : List (String × SavedTC)) (k : String)
    (v : SavedTC) (h : (keysTC m).Nodup) :
    (keysTC (saveSet m k v)).Nodup := by
  induction m with
  | nil => simp [saveSet, keysTC]
  | cons e t ih =>
      obtain ⟨k0, v0⟩ := e
      simp only [keysTC, List.map_cons, List.nodup_cons] at h
      obtain ⟨hk0, ht⟩ := h
      by_cases hk : k0 = k
      · simp only [saveSet, if_pos hk, keysTC, List.map_cons,
          List.nodup_cons]
        exact ⟨by rw [← hk]; exact hk0, ht⟩
      · simp only [saveSet, if_neg hk, keysTC, List.map_cons,
          List.nodup_cons]
        refine ⟨?_, ih ht⟩
        intro hmem
        rcases keysTC_saveSet_sub t k v k0 hmem with h | h
        · exact hk0 h
        · exact hk h

theorem keysTC_upd (m : List (String × SavedTC)) (k : String)
    (r : Option Json) : keysTC (saveUpdResult m k r) = keysTC m := by
  induction m with
  | nil => rfl
  | cons e t ih =>
      obtain ⟨k0, v0⟩ := e
      by_cases hk : k0 = k
      · simp [saveUpdResult, hk, keysTC]
      · simp [saveUpdResult, hk, keysTC]
        exact ih

theorem parseSaveLine_nodup (acc : SaveAcc) (l : String × Json)
    (h : (keysTC acc.toolCalls).Nodup) :
    (keysTC (parseSaveLine acc l).toolCalls).Nodup := by
  rw [parseSaveLine_tc]
  cases idOf9 l with
  | some id => exact keysTC_saveSet_nodup _ _ _ h
  | none =>
      cases idOfA l with
      | some id => rw [keysTC_upd]; exact h
      | none => exact h

theorem foldl_nodup (lines : List (String × Json)) :
    ∀ acc : SaveAcc, (keysTC acc.toolCalls).Nodup →
      (keysTC (lines.foldl parseSaveLine acc).toolCalls).Nodup := by
  induction lines with
  | nil => intro acc h; exact h
  | cons l rest ih =>
      intro acc h
      exact ih _ (parseSaveLine_nodup acc l h)

/-- In a map with distinct keys, a completed entry for the id is the
same as a positive result lookup. -/
theorem mem_completed_iff (m : List (String × SavedTC)) (id : String)
    (h : (keysTC m).Nodup) :
    (∃ tc, (id, tc) ∈ m ∧ tc.result.isSome = true) ↔ compTC m id = true := by
  induction m with
  | nil => simp [compTC, lookupTC]
  | cons e t ih =>
      obtain ⟨k0, v0⟩ := e
      simp only [keysTC, List.map_cons, List.nodup_cons] at h
      obtain ⟨hk0, ht⟩ := h
      by_cases hk : k0 = id
      · subst hk
        constructor
        · rintro ⟨tc, htc, hres⟩
          rcases List.mem_cons.mp htc with heq | hmem
          · have : tc = v0 := by
              have := congrArg Prod.snd heq
              simpa using this
            subst this
            simp [compTC, lookupTC, hres]
          · exact absurd (List.mem_map_of_mem Prod.fst hmem) hk0
        · intro hcomp
          refine ⟨v0, List.mem_cons_self _ _, ?_⟩
          simpa [compTC, lookupTC] using hcomp
      · have hstep : compTC ((k0, v0) :: t) id = compTC t id := by
          simp [compTC, lookupTC, hk]
        rw [hstep, ← ih ht]
        constructor
        · rintro ⟨tc, htc, hres⟩
          rcases List.mem_cons.mp htc with heq | hmem
          · exact absurd (congrArg Prod.fst heq).symm (by simpa using hk)
          · exact ⟨tc, hmem, hres⟩
        · rintro ⟨tc, htc, hres⟩
          exact ⟨tc, List.mem_cons_of_mem _ htc, hres⟩

theorem compTC_of_filter_empty (m : List (String × SavedTC))
    (h : (m.filter (fun e => e.2.result.isSome)).isEmpty = true)
    (id : String) : compTC m id = false := by
  induction m with
  | nil => rfl
  | cons e t ih =>
      obtain ⟨k0, v0⟩ := e
      rw [List.filter_cons] at h
      by_cases hres : v0.result.isSome = true
      · rw [if_pos (by simpa using hres)] at h
        simp [List.isEmpty] at h
      · rw [if_neg (by simpa using hres)] at h
        have hres' : v0.result.isSome = false := by
          cases hv : v0.result.isSome
          · rfl
          · exact absurd hv hres
        by_cases hk : k0 = id
        · simp [compTC, lookupTC, hk, hres']
        · simp only [compTC, lookupTC, if_neg hk]
          exact ih h

theorem partFor_step_start (id : String) :
    partIsInvocationFor (Json.obj [("type", .str "step-start")]) id = false :=
  rfl

theorem partFor_text (s : String) (id : String) :
    partIsInvocationFor
      (Json.obj [("type", .str "text"), ("text", .str s)]) id = false := rfl

theorem partFor_invocation (e : String × SavedTC) (id : String) :
    partIsInvocationFor (invocationPart e) id = (e.1 == id) := rfl


/-- C5 (amended): the mirror persists a tool invocation for an id
exactly when, after the LAST `9:` line announcing the id, there is an
`a:` line for it and the LAST such `a:` line carries a `result` field —
a repeated `9:` line resets the record, and a result-less `a:` line
clears a previously attached result; the persisted content is the
in-order concatenation of the `0:` string payloads, and when neither
text nor a completed call exists no row is persisted at all.  A tool
call whose announcement is never matched this way is omitted from the
persisted parts. -/
theorem c5_matched_invocations_persisted (lines : List (String × Json)) :
    (∀ msg, saveAgentStream lines = some msg →
        msg.content = concatTexts lines ∧
        ∀ id, (∃ j, j ∈ msg.parts ∧ partIsInvocationFor j id = true) ↔
          afterLast9 lines id = true) ∧
    (saveAgentStream lines = none →
        concatTexts lines = "" ∧ ∀ id, afterLast9 lines id = false) := by
  have htext : (lines.foldl parseSaveLine ⟨"", []⟩).textContent =
      concatTexts lines := fold_text lines ⟨"", []⟩
  have hcomp : ∀ id,
      compTC (lines.foldl parseSaveLine ⟨"", []⟩).toolCalls id =
        afterLast9 lines id := by
    intro id
    rw [fold_comp lines ⟨"", []⟩ id]
    simp [memTC, compTC, lookupTC]
  have hnd : (keysTC (lines.foldl parseSaveLine ⟨"", []⟩).toolCalls).Nodup :=
    foldl_nodup lines ⟨"", []⟩ (by simp [keysTC])
  constructor
  · intro msg hmsg
    simp only [saveAgentStream] at hmsg
    split at hmsg
    · exact Option.noConfusion hmsg
    · cases hmsg
      refine ⟨htext, ?_⟩
      intro id
      constructor
      · rintro ⟨j, hj, hP⟩
        rcases List.mem_cons.mp hj with hj1 | hj2
        · subst hj1
          rw [partFor_step_start] at hP
          exact Bool.noConfusion hP
        rcases List.mem_append.mp hj2 with hj3 | hj4
        case _ =>
          obtain ⟨e, he, heq2⟩ := List.mem_map.mp hj3
          subst heq2
          rw [partFor_invocation] at hP
          have heq : e.1 = id := eq_of_beq hP
          obtain ⟨hmem, hpred⟩ := List.mem_filter.mp he
          have hmem2 : (id, e.2) ∈
              (lines.foldl parseSaveLine ⟨"", []⟩).toolCalls := by
            rw [← heq, Prod.mk.eta]
            exact hmem
          have hc := (mem_completed_iff _ id hnd).mp ⟨e.2, hmem2, hpred⟩
          rw [← hcomp id]
          exact hc
        case _ =>
          split at hj4
          · simp at hj4
          · simp only [List.mem_singleton] at hj4
            subst hj4
            rw [partFor_text] at hP
            exact Bool.noConfusion hP
      · intro hAL
        have hc : compTC (lines.foldl parseSaveLine ⟨"", []⟩).toolCalls id =
            true := by
          rw [hcomp id]
          exact hAL
        obtain ⟨tc, hmem, hres⟩ := (mem_completed_iff _ id hnd).mpr hc
        refine ⟨invocationPart (id, tc), ?_, ?_⟩
        · exact List.mem_cons_of_mem _ (List.mem_append_left _
            (List.mem_map_of_mem _ (List.mem_filter.mpr ⟨hmem, hres⟩)))
        · rw [partFor_invocation]
          exact beq_self_eq_true id
  · intro hnone
    simp only [saveAgentStream] at hnone
    split at hnone
    · next hcond =>
        rw [Bool.and_eq_true, decide_eq_true_eq] at hcond
        obtain ⟨htc0, hemp⟩ := hcond
        refine ⟨by rw [← htext]; exact htc0, ?_⟩
        intro id
        rw [← hcomp id]
        exact compTC_of_filter_empty _ hemp id
    · exact Option.noConfusion hnone

/-- The matching predicate of C5 as frozen: SOME `9:` line for the id is
followed later by an `a:` line for the id. -/
def some9ThenA : List (String × Json) → String → Bool
  | [], _ => false
  | l :: rest, id =>
      if idOf9 l = some id then hasA rest id || some9ThenA rest id
      else some9ThenA rest id

/-- Mirror input refuting C5 as frozen: the same toolCallId is announced
again by a second `9:` line after its `a:` result — exactly the line
pattern a second tool round produces, since the transcoder never clears
`toolCallMap`. -/
def c5cexLines : List (String × Json) :=
  [("9", Json.obj [("toolCallId", .str "call_a"), ("toolName", .str "fetch"),
      ("args", Json.obj [])]),
   ("a", Json.obj [("toolCallId", .str "call_a"), ("result", .num 7)]),
   ("9", Json.obj [("toolCallId", .str "call_a"), ("toolName", .str "fetch"),
      ("args", Json.obj [])])]

/-- Counterexample to C5 as frozen: a tool call whose `9:` line IS later
matched by an `a:` tool-result line is nevertheless not persisted — the
repeated announcement resets the record and discards the result, so the
mirror persists nothing for this stream. -/
theorem c5_counterexample :
    some9ThenA c5cexLines "call_a" = true ∧
      saveAgentStream c5cexLines = none :=
  ⟨by rfl, by rfl⟩

end Zola
